import Mathlib

/-!
Verification development for the pnml aggregation pipeline implemented in
`build.py` of the BRTrains2-Extended repository.

The filesystem is modelled shallowly: the source tree is a list of
`FileEntry` values, one per `*.pnml` file found by `Path.rglob`, in
enumeration order.  File contents are strings.  Fallible steps return
`Except String`.
-/

set_option maxRecDepth 100000

namespace Build

/-- A fragment file: its path components relative to the source directory
(the last component is the file name, e.g. `["Locomotive_Steam", "BR43.pnml"]`)
and its text content. -/
structure FileEntry where
  relParts : List String
  content : String
deriving DecidableEq, Repr

/-- The file name (`file.stem + file.suffix` in `build.py`). -/
def fileName (f : FileEntry) : String :=
  f.relParts.getLastD ""

/-- The path components as seen by `build.py` (`file.parts`): the `rglob`
results start with the `src` directory component. -/
def fileParts (f : FileEntry) : List String :=
  "src" :: f.relParts

/-- The slash-joined display path (`str(file)`), used here as the uniqueness
key for files; path ordering is `partsLe` on `fileParts`, not this string. -/
def pathStr (f : FileEntry) : String :=
  String.intercalate "/" (fileParts f)

/-- Is `pat` a prefix of `cs`? (structural, so the kernel can evaluate it) -/
def isPrefixChars : List Char → List Char → Bool
  | [], _ => true
  | _ :: _, [] => false
  | a :: as, b :: bs => a = b && isPrefixChars as bs

/-- Does `cs` contain `pat` as a contiguous run? -/
def infixChars (pat : List Char) : List Char → Bool
  | [] => isPrefixChars pat []
  | c :: rest => isPrefixChars pat (c :: rest) || infixChars pat rest

/-- `Path.stem`: the file name without its final extension (Python keeps the
whole name when the only dot is the leading character). -/
def stemOf (name : String) : String :=
  match (name.data.reverse.dropWhile (fun c => c ≠ '.')) with
  | [] => name
  | [_] => name
  | _ :: rest => String.mk rest.reverse

/-- `stem.rsplit("_")[0]`: the text before the first underscore of the stem. -/
def prefixKey (s : String) : String :=
  String.mk (s.data.takeWhile (fun c => c ≠ '_'))

/-- `"Tenders" in stem` (Python substring test). -/
def containsTenders (s : String) : Bool :=
  infixChars "Tenders".data s.data

/-- The `KeyFiles` table of `build.py` (the required fragment set), in
declared order. -/
def KeyFiles : List String :=
  ["grf.pnml", "railtypes.pnml", "sounds.pnml",
   "templates_shared.pnml", "templates_trains.pnml"]

/-- The `SpecialOrderFiles` table of `build.py`: chain trigger file names
mapped to their ordered follower file names. -/
def SpecialOrderFiles : List (String × List String) :=
  [("BR_Mk3_TS.pnml",
    ["BR_Mk3_TSD.pnml", "BR43.pnml", "BR253.pnml", "BR254.pnml",
     "BR256.pnml", "BR257.pnml"]),
   ("BR_Mk4_Header.pnml",
    ["BR_Mk4_DVT.pnml", "BR_Mk4_TF.pnml", "BR_Mk4_TFE.pnml",
     "BR_Mk4_TRFB.pnml", "BR_Mk4_TRSB.pnml", "BR_Mk4_TS.pnml",
     "BR_Mk4_TSD.pnml", "BR_Mk4_TSE.pnml", "BR91.pnml", "BR91_IC225.pnml"]),
   ("Containers_BR.pnml",
    ["BR_Conflat_A.pnml", "BR_Conflat_P.pnml"]),
   ("RCH_1907_graphics.pnml",
    ["1_Plank_Open_Wagons_Load.pnml", "3_Plank_Open_Wagons_Load.pnml",
     "5_Plank_Open_Wagons_Load.pnml", "7_Plank_Open_Wagons_Load.pnml",
     "RCH_1907.pnml", "RCH_1907_1_plank.pnml", "RCH_1907_3_plank.pnml",
     "RCH_1907_5_plank.pnml", "RCH_1907_7_plank.pnml", "RCH_1907_Van.pnml"]),
   ("60Long_Cont20_Side.pnml",
    ["60Long_Cont30_Side.pnml", "60Long_Cont40_Side.pnml",
     "BR_FFA.pnml", "BR_FEA.pnml"]),
   ("LMS_4F.pnml",
    ["MR_Tenders.pnml", "MR_3835.pnml", "LMS_Fowler_2P.pnml",
     "LMS_Fowler_4P.pnml"]),
   ("Evol_Header.pnml",
    ["Evol_B.pnml", "Evol_F.pnml", "Evol_T.pnml"])]

/-- Decidable equality for `Except`, so concrete pipeline results can be
checked by `decide`. -/
def exceptDecEq {ε α : Type} [DecidableEq ε] [DecidableEq α] :
    (a b : Except ε α) → Decidable (a = b)
  | Except.error e, Except.error f =>
    if h : e = f then isTrue (by rw [h]) else isFalse (fun he => h (by injection he))
  | Except.error _, Except.ok _ => isFalse (fun h => Except.noConfusion h)
  | Except.ok _, Except.error _ => isFalse (fun h => Except.noConfusion h)
  | Except.ok a, Except.ok b =>
    if h : a = b then isTrue (by rw [h]) else isFalse (fun he => h (by injection he))

instance {ε α : Type} [DecidableEq ε] [DecidableEq α] : DecidableEq (Except ε α) :=
  exceptDecEq

/-- First-match association lookup (Python `dict.get` / `in` on a dict whose
keys are unique). -/
def assocLookup {α : Type} (k : String) : List (String × α) → Option α
  | [] => none
  | (k2, v) :: rest => if k2 = k then some v else assocLookup k rest

/-- Python `dict[k] = v`: replace the value of an existing key in place,
otherwise add the binding at the end. -/
def dictInsert {α : Type} (k : String) (v : α) : List (String × α) → List (String × α)
  | [] => [(k, v)]
  | (k2, v2) :: rest =>
    if k2 = k then (k, v) :: rest else (k2, v2) :: dictInsert k v rest

/-- Python `dict.pop(k)`: drop the (first) binding of key `k`. -/
def dictPop {α : Type} (k : String) : List (String × α) → List (String × α)
  | [] => []
  | (k2, v2) :: rest =>
    if k2 = k then rest else (k2, v2) :: dictPop k rest

/-- `file_name in SpecialOrderFiles` (a chain trigger name). -/
def isTrigger (n : String) : Bool :=
  (assocLookup n SpecialOrderFiles).isSome

/-- `SpecialOrderFiles.get(file_name)` for declared triggers. -/
def followersOf (n : String) : List String :=
  (assocLookup n SpecialOrderFiles).getD []

/-- The block `copy_file` appends for one file: a provenance comment line
`// <name>`, the file's content, then two newlines. -/
def copyBlock (name content : String) : String :=
  "// " ++ name ++ "\n" ++ content ++ "\n\n"

/-- The emitted block of a scanned fragment. -/
def emitEntry (f : FileEntry) : String :=
  copyBlock (fileName f) f.content

/-- `find_special_file`: `rglob` for an exact file name under the source
root; zero matches and multiple matches both raise. -/
def findSpecialFile (tree : List FileEntry) (fname : String) : Except String FileEntry :=
  match tree.filter (fun f => fileName f = fname) with
  | [] => Except.error ("No file named '" ++ fname ++ "' found")
  | [f] => Except.ok f
  | _ => Except.error ("Multiple files named '" ++ fname ++ "' found")

/-- Resolve the follower list of a chain trigger, in declared order. -/
def resolveFollowers (tree : List FileEntry) : List String → Except String (List FileEntry)
  | [] => Except.ok []
  | n :: ns =>
    match findSpecialFile tree n with
    | Except.error e => Except.error e
    | Except.ok f =>
      match resolveFollowers tree ns with
      | Except.error e => Except.error e
      | Except.ok rest => Except.ok (f :: rest)

/-- The mutable classification state built by the scanning loop of `main`
(lines 242-285 of `build.py`). -/
structure ScanState where
  top : List FileEntry
  priority : List FileEntry
  normal : List FileEntry
  appendT : List FileEntry
  tenders : List (String × FileEntry)
  specials : List (String × List FileEntry)
  inChain : List String
deriving DecidableEq, Repr

/-- The empty initial scan state. -/
def initState : ScanState :=
  ⟨[], [], [], [], [], [], []⟩

/-- The tier-classification part of one iteration of the scanning loop
(the `if/elif` ladder at lines 273-285 of `build.py`). -/
def tierStep (f : FileEntry) (st : ScanState) : ScanState :=
  if f.relParts.length = 1 then
    if fileName f ∈ KeyFiles then st else { st with top := st.top ++ [f] }
  else if "priority" ∈ f.relParts then { st with priority := st.priority ++ [f] }
  else if "append" ∈ f.relParts then { st with appendT := st.appendT ++ [f] }
  else if containsTenders (stemOf (fileName f)) then
    { st with tenders := dictInsert (prefixKey (stemOf (fileName f))) f st.tenders }
  else if fileName f ∉ KeyFiles ∧ fileName f ∉ st.inChain then
    { st with normal := st.normal ++ [f] }
  else st

/-- One iteration of the scanning loop: chain resolution for triggers, then
tier classification. -/
def scanStep (tree : List FileEntry) (st : ScanState) (f : FileEntry) :
    Except String ScanState :=
  if isTrigger (fileName f) = true ∧ fileName f ∉ st.inChain then
    match resolveFollowers tree (followersOf (fileName f)) with
    | Except.error e => Except.error e
    | Except.ok rs =>
      Except.ok (tierStep f
        { st with inChain := st.inChain ++ followersOf (fileName f),
                  specials := st.specials ++ [(fileName f, rs)] })
  else Except.ok (tierStep f st)

/-- The scanning loop from a given state over the remaining enumeration. -/
def scanList (tree : List FileEntry) (st : ScanState) :
    List FileEntry → Except String ScanState
  | [] => Except.ok st
  | f :: rest =>
    match scanStep tree st f with
    | Except.error e => Except.error e
    | Except.ok st2 => scanList tree st2 rest

/-- The whole scanning loop over the `rglob` enumeration. -/
def scanTree (tree : List FileEntry) : Except String ScanState :=
  scanList tree initState tree

/-- Look up a top-level file of the source directory by name
(`src_directory.joinpath(name)`). -/
def findTop (tree : List FileEntry) (n : String) : Option FileEntry :=
  match tree with
  | [] => none
  | f :: rest => if f.relParts = [n] then some f else findTop rest n

/-- The required-fragment emission loop of `main` (lines 237-239): each
`KeyFiles` entry is read with `copy_file`, which raises if the file is
absent. -/
def requiredEmit (tree : List FileEntry) : List String → Except String String
  | [] => Except.ok ""
  | n :: ns =>
    match findTop tree n with
    | none => Except.error ("The file <src/" ++ n ++ "> does not exist.")
    | some f =>
      match requiredEmit tree ns with
      | Except.error e => Except.error e
      | Except.ok rest => Except.ok (copyBlock n f.content ++ rest)

/-- Strict lexicographic comparison of character lists by code point: CPython
`str` `<`. Equal prefixes recurse; the shorter string sorts first. -/
def lexLtChars : List Char → List Char → Bool
  | [], [] => false
  | [], _ :: _ => true
  | _ :: _, [] => false
  | a :: as, b :: bs => if a = b then lexLtChars as bs else decide (a < b)

/-- CPython `PurePath.__lt__` compares the case-normalised *parts* lists
(`self._parts_normcase < other._parts_normcase`, the identity normalisation
on posix), i.e. list-lexicographic comparison with each component compared
as a string by code point and a strict prefix of parts sorting first. This
is the non-strict version of that order. -/
def partsLe : List String → List String → Bool
  | [], _ => true
  | _ :: _, [] => false
  | a :: as, b :: bs => if a = b then partsLe as bs else lexLtChars a.data b.data

/-- The order used by `sorted(file_list)`: `Path.__lt__` on the parts lists. -/
def pathLe (a b : FileEntry) : Prop :=
  partsLe (fileParts a) (fileParts b) = true

instance : DecidableRel pathLe :=
  fun a b => inferInstanceAs (Decidable (partsLe (fileParts a) (fileParts b) = true))

/-- `sorted(file_list)` of `build.py` line 299: sort in `Path` order. -/
def sortPath (l : List FileEntry) : List FileEntry :=
  List.insertionSort pathLe l

/-- The tender-companion splice (lines 305-310 of `build.py`): before a file
located under a `Locomotive_Steam` directory is emitted, a pending tender
with the same stem prefix is popped and emitted first. -/
def tenderSplice (tm : List (String × FileEntry)) (f : FileEntry) :
    String × List (String × FileEntry) :=
  if "Locomotive_Steam" ∈ fileParts f then
    match assocLookup (prefixKey (stemOf (fileName f))) tm with
    | some t => (emitEntry t, dictPop (prefixKey (stemOf (fileName f))) tm)
    | none => ("", tm)
  else ("", tm)

/-- Concatenation of a list of blocks. -/
def strConcat (l : List String) : String :=
  l.foldr (fun a b => a ++ b) ""

/-- The chain splice (lines 315-320 of `build.py`): after a trigger file's
block, the resolved chain members are emitted in order. -/
def chainPart (sp : List (String × List FileEntry)) (name : String) : String :=
  if isTrigger name then
    match assocLookup name sp with
    | some ch => strConcat (ch.map emitEntry)
    | none => ""
  else ""

/-- The inner emission loop over one tier's sorted file list (lines 299-320
of `build.py`), threading the pending-tender map. -/
def emitFiles (c : List String) (sp : List (String × List FileEntry)) :
    List FileEntry → List (String × FileEntry) → String × List (String × FileEntry)
  | [], tm => ("", tm)
  | f :: rest, tm =>
    if fileName f ∈ c then emitFiles c sp rest tm
    else
      let pre := tenderSplice tm f
      let s := pre.1 ++ emitEntry f ++ chainPart sp (fileName f)
      let r := emitFiles c sp rest pre.2
      (s ++ r.1, r.2)

/-- The four tier lists in the fixed iteration order of the `pnml_files`
ordered dictionary. -/
def tiersList (st : ScanState) : List (List FileEntry) :=
  [st.top, st.priority, st.normal, st.appendT]

/-- The outer emission loop over the tiers (line 296 of `build.py`). -/
def emitTiers (st : ScanState) :
    List (List FileEntry) → List (String × FileEntry) → String × List (String × FileEntry)
  | [], tm => ("", tm)
  | l :: ls, tm =>
    let r1 := emitFiles st.inChain st.specials (sortPath l) tm
    let r2 := emitTiers st ls r1.2
    (r1.1 ++ r2.1, r2.2)

/-- The aggregation core of `main`: required-fragment emission, the scanning
loop, then tier emission, producing the output buffer. -/
def buildNml (tree : List FileEntry) : Except String String :=
  match requiredEmit tree KeyFiles with
  | Except.error e => Except.error e
  | Except.ok req =>
    match scanTree tree with
    | Except.error e => Except.error e
    | Except.ok st =>
      Except.ok (req ++ (emitTiers st (tiersList st) st.tenders).1)

/-- The view of the filesystem an invocation sees: which directories exist,
and the tree of pnml files under each directory name. -/
structure FS where
  dirs : List String
  treeOf : String → List FileEntry

/-- `check_project_structure`: the source and graphics directories must
exist; a missing language directory only degrades `has_lang`; of the key
files only `grf.pnml` and `railtypes.pnml` are fatal when absent. -/
def checkStructure (fs : FS) (srcD gfxD langD : String) : Except String Bool :=
  if srcD ∉ fs.dirs then
    Except.error "\"src\" directory not found.  Aborting"
  else if gfxD ∉ fs.dirs then
    Except.error "\"gfx\" directory not found.  Aborting"
  else if (findTop (fs.treeOf srcD) "grf.pnml").isNone then
    Except.error "\"grf.pnml\" not found. It should be in \"src\" and contain the grf block."
  else if (findTop (fs.treeOf srcD) "railtypes.pnml").isNone then
    Except.error "\"railtypes.pnml\" not found. It should be in \"src\" and contain the railtypetable block."
  else
    Except.ok (langD ∈ fs.dirs)

/-- The pipeline entry point `main(grf_name, src_dir, lang_dir, gfx_dir, ...)`.
Lines 227-229 of `build.py` assign the literals `Path("src")`, `Path("lang")`
and `Path("gfx")`, so the three directory arguments are never read.  The
second component is the list of artifacts written by `write_file`, which
runs once, after the buffer is fully assembled. -/
def mainRun (grfName srcArg langArg gfxArg : String) (fs : FS) :
    Except String String × List (String × String) :=
  match checkStructure fs "src" "gfx" "lang" with
  | Except.error e => (Except.error e, [])
  | Except.ok _hasLang =>
    match buildNml (fs.treeOf "src") with
    | Except.error e => (Except.error e, [])
    | Except.ok buf => (Except.ok buf, [("build/" ++ grfName ++ ".nml", buf)])

/-- Number of positions of `cs` at which `pat` starts. -/
def countOcc (pat : List Char) : List Char → Nat
  | [] => 0
  | c :: rest => (if isPrefixChars pat (c :: rest) then 1 else 0) + countOcc pat rest

/-- Number of occurrences of a pattern in a string (the block markers counted
with it never overlap themselves). -/
def countSubstr (s pat : String) : Nat :=
  countOcc pat.data s.data

/-- The buffer of a successful build, or the error message. -/
def okD : Except String String → String
  | Except.ok s => s
  | Except.error e => e

/-- The scan state of a successful scan (defaulting to the empty state). -/
def scanOf (tree : List FileEntry) : ScanState :=
  (scanTree tree).toOption.getD initState

/-- The tier-emission result (buffer part and leftover tender map) of a
successful scan. -/
def emitResult (tree : List FileEntry) : String × List (String × FileEntry) :=
  emitTiers (scanOf tree) (tiersList (scanOf tree)) (scanOf tree).tenders

/-- Does the file carry a Required Fragment Set name? -/
def isKeyName (f : FileEntry) : Bool :=
  decide (fileName f ∈ KeyFiles)

/-- Classification: the file sits directly in the source directory. -/
def isTopLevel (f : FileEntry) : Bool :=
  decide (f.relParts.length = 1)

/-- Classification outcome "Top level tier" of the scanning ladder. -/
def topPredB (f : FileEntry) : Bool :=
  isTopLevel f && !isKeyName f

/-- Classification outcome "Priority tier" of the scanning ladder. -/
def prioPredB (f : FileEntry) : Bool :=
  !isTopLevel f && decide ("priority" ∈ f.relParts)

/-- Classification outcome "Append tier" of the scanning ladder. -/
def appPredB (f : FileEntry) : Bool :=
  !isTopLevel f && !decide ("priority" ∈ f.relParts) && decide ("append" ∈ f.relParts)

/-- Classification outcome "tender companion" of the scanning ladder. -/
def tenderPredB (f : FileEntry) : Bool :=
  !isTopLevel f && !decide ("priority" ∈ f.relParts) && !decide ("append" ∈ f.relParts) &&
    containsTenders (stemOf (fileName f))

/-- The static part of the "Normal tier" outcome (the dynamic part excludes
names already marked in-chain at scan time). -/
def normalBaseB (f : FileEntry) : Bool :=
  !isTopLevel f && !decide ("priority" ∈ f.relParts) && !decide ("append" ∈ f.relParts) &&
    !containsTenders (stemOf (fileName f)) && !isKeyName f

/-- The companion registration key of a file. -/
def tKey (f : FileEntry) : String :=
  prefixKey (stemOf (fileName f))

/-- Every follower name of every chain declaration. -/
def allFollowerNames : List String :=
  (SpecialOrderFiles.map Prod.snd).join

/-- Some file of the tree carries this name. -/
def presentName (tree : List FileEntry) (n : String) : Prop :=
  ∃ f ∈ tree, fileName f = n

/-- The last element of a list, with a default: the value a sequence of
Python dict assignments leaves behind. -/
def lastD {α : Type} : List α → Option α → Option α
  | [], d => d
  | a :: rest, _ => lastD rest (some a)

/-- A complete top-level required set, used by several concrete scenarios. -/
def baseTree : List FileEntry :=
  [⟨["grf.pnml"], "G"⟩, ⟨["railtypes.pnml"], "R"⟩, ⟨["sounds.pnml"], "S"⟩,
   ⟨["templates_shared.pnml"], "H"⟩, ⟨["templates_trains.pnml"], "T"⟩]

/-- The output buffer of a run over `baseTree` alone. -/
def baseBuf : String :=
  "// grf.pnml\nG\n\n// railtypes.pnml\nR\n\n// sounds.pnml\nS\n\n" ++
  "// templates_shared.pnml\nH\n\n// templates_trains.pnml\nT\n\n"

/-- A filesystem whose source tree holds only `grf.pnml` and
`railtypes.pnml`. -/
def c1fs : FS :=
  ⟨["src", "gfx", "lang"],
   fun d => if d = "src" then [⟨["grf.pnml"], "G"⟩, ⟨["railtypes.pnml"], "R"⟩] else []⟩

/-- An alternative source tree with distinct contents, present under the
directory name `altsrc`. -/
def altTree : List FileEntry :=
  [⟨["grf.pnml"], "ALTG"⟩, ⟨["railtypes.pnml"], "ALTR"⟩, ⟨["sounds.pnml"], "ALTS"⟩,
   ⟨["templates_shared.pnml"], "ALTH"⟩, ⟨["templates_trains.pnml"], "ALTT"⟩]

/-- A filesystem carrying both a `src` tree and a distinct `altsrc` tree. -/
def c2fs : FS :=
  ⟨["src", "gfx", "lang", "altsrc", "altgfx", "altlang"],
   fun d => if d = "src" then baseTree else if d = "altsrc" then altTree else []⟩

/-- A tree in which the chain follower `MR_Tenders.pnml` is also registered
as a tender companion and a steam primary with prefix `MR` exists. -/
def t3cex : List FileEntry :=
  baseTree ++
  [⟨["Locomotive_Steam", "LMS_4F.pnml"], "lms4f"⟩,
   ⟨["Locomotive_Steam", "MR_Extra.pnml"], "extra"⟩,
   ⟨["T", "MR_Tenders.pnml"], "mrt"⟩,
   ⟨["Ch", "MR_3835.pnml"], "m3835"⟩,
   ⟨["Ch", "LMS_Fowler_2P.pnml"], "f2p"⟩,
   ⟨["Ch", "LMS_Fowler_4P.pnml"], "f4p"⟩]

/-- Like `t3cex` but with no `MR`-prefixed steam primary, so the registered
companion `MR_Tenders.pnml` is never matched. -/
def t5cex : List FileEntry :=
  baseTree ++
  [⟨["Locomotive_Steam", "LMS_4F.pnml"], "lms4f"⟩,
   ⟨["T", "MR_Tenders.pnml"], "mrt"⟩,
   ⟨["Ch", "MR_3835.pnml"], "m3835"⟩,
   ⟨["Ch", "LMS_Fowler_2P.pnml"], "f2p"⟩,
   ⟨["Ch", "LMS_Fowler_4P.pnml"], "f4p"⟩]

/-- The tender file of the companion/primary pair used against C6. -/
def c6tender : FileEntry := ⟨["T", "LNER_Tenders.pnml"], "lt"⟩

/-- The steam primary of the companion/primary pair used against C6. -/
def c6primary : FileEntry := ⟨["Locomotive_Steam", "LNER_A4.pnml"], "a4"⟩

/-- A tree with one companion/primary pair under the steam context. -/
def t6cex : List FileEntry :=
  baseTree ++ [c6primary, c6tender]

/-- A tree with an extra copy of the required-set name `sounds.pnml` under a
`priority` directory. -/
def t7cex : List FileEntry :=
  baseTree ++ [⟨["priority", "sounds.pnml"], "EXTRA"⟩]

/-- Two tender files sharing the prefix key `MR`, plus a steam primary with
that prefix: scan enumeration order decides which tender is registered. -/
def t10a : List FileEntry :=
  baseTree ++
  [⟨["Locomotive_Steam", "MR_Loco.pnml"], "loco"⟩,
   ⟨["T", "MR_Tenders.pnml"], "T1"⟩,
   ⟨["T", "MR_TendersX.pnml"], "T2"⟩]

/-- The same set of files as `t10a`, enumerated with the two tenders
swapped. -/
def t10b : List FileEntry :=
  baseTree ++
  [⟨["Locomotive_Steam", "MR_Loco.pnml"], "loco"⟩,
   ⟨["T", "MR_TendersX.pnml"], "T2"⟩,
   ⟨["T", "MR_Tenders.pnml"], "T1"⟩]

/-! ### The lexicographic path order -/

theorem lexLtChars_total_of_ne : ∀ as bs : List Char, as ≠ bs →
    lexLtChars as bs = true ∨ lexLtChars bs as = true
  | [], [] => fun h => absurd rfl h
  | [], _ :: _ => fun _ => Or.inl rfl
  | _ :: _, [] => fun _ => Or.inr rfl
  | a :: as, b :: bs => fun h => by
    by_cases hab : a = b
    · subst hab
      have h' : as ≠ bs := fun he => h (by rw [he])
      simpa [lexLtChars] using lexLtChars_total_of_ne as bs h'
    · rcases lt_or_gt_of_ne hab with hlt | hgt
      · exact Or.inl (by simp [lexLtChars, hab, hlt])
      · exact Or.inr (by simp [lexLtChars, Ne.symm hab, hgt])

theorem lexLtChars_trans : ∀ as bs cs : List Char,
    lexLtChars as bs = true → lexLtChars bs cs = true → lexLtChars as cs = true
  | [], [], _ => fun h _ => by simp [lexLtChars] at h
  | [], _ :: _, [] => fun _ h => by simp [lexLtChars] at h
  | [], _ :: _, _ :: _ => fun _ _ => rfl
  | _ :: _, [], _ => fun h _ => by simp [lexLtChars] at h
  | _ :: _, _ :: _, [] => fun _ h => by simp [lexLtChars] at h
  | a :: as, b :: bs, c :: cs => fun h₁ h₂ => by
    by_cases hab : a = b <;> by_cases hbc : b = c
    · subst hab; subst hbc
      simp only [lexLtChars, if_pos rfl] at h₁ h₂ ⊢
      exact lexLtChars_trans as bs cs h₁ h₂
    · subst hab
      simp only [lexLtChars, if_neg hbc] at h₂ ⊢
      exact h₂
    · subst hbc
      simp only [lexLtChars, if_neg hab] at h₁ ⊢
      exact h₁
    · simp only [lexLtChars, if_neg hab, if_neg hbc, decide_eq_true_eq] at h₁ h₂
      have hac : a < c := lt_trans h₁ h₂
      simp [lexLtChars, ne_of_lt hac, hac]

theorem lexLtChars_asymm : ∀ as bs : List Char,
    lexLtChars as bs = true → lexLtChars bs as = false
  | [], [] => fun h => by simp [lexLtChars] at h
  | [], _ :: _ => fun _ => rfl
  | _ :: _, [] => fun h => by simp [lexLtChars] at h
  | a :: as, b :: bs => fun h => by
    by_cases hab : a = b
    · subst hab
      simp only [lexLtChars, if_pos rfl] at h ⊢
      exact lexLtChars_asymm as bs h
    · have hba : ¬ b = a := fun he => hab he.symm
      simp only [lexLtChars, if_neg hab, decide_eq_true_eq] at h
      simp only [lexLtChars, if_neg hba]
      exact decide_eq_false (lt_asymm h)

/-- Equality of the underlying character lists forces equality of strings. -/
theorem string_data_eq {a b : String} (h : a.data = b.data) : a = b := by
  calc a = String.mk a.data := rfl
    _ = String.mk b.data := by rw [h]
    _ = b := rfl

theorem partsLe_total : ∀ as bs : List String,
    partsLe as bs = true ∨ partsLe bs as = true
  | [], _ => Or.inl rfl
  | _ :: _, [] => Or.inr rfl
  | a :: as, b :: bs => by
    by_cases hab : a = b
    · subst hab
      simpa [partsLe] using partsLe_total as bs
    · have hd : a.data ≠ b.data := fun he => hab (string_data_eq he)
      have hba : ¬ b = a := fun he => hab he.symm
      rcases lexLtChars_total_of_ne a.data b.data hd with h | h
      · exact Or.inl (by simpa [partsLe, if_neg hab] using h)
      · exact Or.inr (by simpa [partsLe, if_neg hba] using h)

theorem partsLe_trans : ∀ as bs cs : List String,
    partsLe as bs = true → partsLe bs cs = true → partsLe as cs = true
  | [], _, _ => fun _ _ => rfl
  | _ :: _, [], _ => fun h _ => by simp [partsLe] at h
  | _ :: _, _ :: _, [] => fun _ h => by simp [partsLe] at h
  | a :: as, b :: bs, c :: cs => fun h₁ h₂ => by
    by_cases hab : a = b <;> by_cases hbc : b = c
    · subst hab; subst hbc
      simp only [partsLe, if_pos rfl] at h₁ h₂ ⊢
      exact partsLe_trans as bs cs h₁ h₂
    · subst hab
      simp only [partsLe, if_neg hbc] at h₂ ⊢
      exact h₂
    · subst hbc
      simp only [partsLe, if_neg hab] at h₁ ⊢
      exact h₁
    · simp only [partsLe, if_neg hab, if_neg hbc] at h₁ h₂
      have hac : lexLtChars a.data c.data = true := lexLtChars_trans _ _ _ h₁ h₂
      have hne : a ≠ c := by
        intro he
        subst he
        have hfa := lexLtChars_asymm _ _ h₁
        rw [h₂] at hfa
        cases hfa
      simp only [partsLe, if_neg hne]
      exact hac

theorem partsLe_antisymm : ∀ as bs : List String,
    partsLe as bs = true → partsLe bs as = true → as = bs
  | [], [] => fun _ _ => rfl
  | [], _ :: _ => fun _ h => by simp [partsLe] at h
  | _ :: _, [] => fun h _ => by simp [partsLe] at h
  | a :: as, b :: bs => fun h₁ h₂ => by
    by_cases hab : a = b
    · subst hab
      simp only [partsLe, if_pos rfl] at h₁ h₂
      rw [partsLe_antisymm as bs h₁ h₂]
    · have hba : ¬ b = a := fun h => hab h.symm
      simp only [partsLe, if_neg hab] at h₁
      simp only [partsLe, if_neg hba] at h₂
      have hfa := lexLtChars_asymm _ _ h₁
      rw [h₂] at hfa
      cases hfa

theorem pathLe_total (a b : FileEntry) : pathLe a b ∨ pathLe b a :=
  partsLe_total _ _

theorem pathLe_trans {a b c : FileEntry} : pathLe a b → pathLe b c → pathLe a c :=
  partsLe_trans _ _ _

theorem pathLe_antisymm {a b : FileEntry} (h₁ : pathLe a b) (h₂ : pathLe b a) :
    pathStr a = pathStr b := by
  have h : fileParts a = fileParts b := partsLe_antisymm _ _ h₁ h₂
  unfold pathStr
  rw [h]

theorem sortPath_sorted (l : List FileEntry) : (sortPath l).Sorted pathLe := by
  haveI : IsTotal FileEntry pathLe := ⟨pathLe_total⟩
  haveI : IsTrans FileEntry pathLe := ⟨fun _ _ _ => pathLe_trans⟩
  exact List.sorted_insertionSort pathLe l

theorem sortPath_perm (l : List FileEntry) : (sortPath l).Perm l :=
  List.perm_insertionSort pathLe l

/-- Two sorted lists of fragments with the same elements and pairwise
distinct path strings are equal. -/
theorem sorted_key_eq : ∀ xs ys : List FileEntry, xs.Perm ys →
    xs.Sorted pathLe → ys.Sorted pathLe → (xs.map pathStr).Nodup → xs = ys
  | [], ys, hp, _, _, _ => hp.nil_eq
  | x :: xs, ys, hp, hsx, hsy, hnd => by
    cases ys with
    | nil => exact absurd (List.perm_nil.mp hp) (by simp)
    | cons y ys' =>
      by_cases hxy : x = y
      · subst hxy
        have hp' := hp.cons_inv
        have ht := sorted_key_eq xs ys' hp' hsx.of_cons hsy.of_cons
          (by simpa [List.nodup_cons] using (List.nodup_cons.mp (by simpa using hnd)).2)
        rw [ht]
      · exfalso
        have hxmem : x ∈ y :: ys' := hp.mem_iff.mp (List.mem_cons_self x xs)
        have hymem : y ∈ x :: xs := hp.mem_iff.mpr (List.mem_cons_self y ys')
        have hx' : x ∈ ys' := by
          rcases List.mem_cons.mp hxmem with h | h
          · exact absurd h hxy
          · exact h
        have hy' : y ∈ xs := by
          rcases List.mem_cons.mp hymem with h | h
          · exact absurd h.symm hxy
          · exact h
        have h₁ : pathLe x y := List.rel_of_sorted_cons hsx y hy'
        have h₂ : pathLe y x := List.rel_of_sorted_cons hsy x hx'
        have heq : pathStr x = pathStr y := pathLe_antisymm h₁ h₂
        have hnotin : pathStr x ∉ xs.map pathStr :=
          (List.nodup_cons.mp (by simpa using hnd)).1
        exact hnotin (heq ▸ List.mem_map_of_mem pathStr hy')

theorem sortPath_eq_of_perm {l₁ l₂ : List FileEntry} (hp : l₁.Perm l₂)
    (hnd : (l₁.map pathStr).Nodup) : sortPath l₁ = sortPath l₂ :=
  sorted_key_eq _ _ ((sortPath_perm l₁).trans (hp.trans (sortPath_perm l₂).symm))
    (sortPath_sorted l₁) (sortPath_sorted l₂)
    (((sortPath_perm l₁).map pathStr).nodup_iff.mpr hnd)

/-! ### Association list and dictionary lemmas -/

theorem assocLookup_cons {α : Type} (t k : String) (v : α) (m : List (String × α)) :
    assocLookup t ((k, v) :: m) = if k = t then some v else assocLookup t m :=
  rfl

theorem dictInsert_cons {α : Type} (k k2 : String) (v v2 : α) (m : List (String × α)) :
    dictInsert k v ((k2, v2) :: m) =
      if k2 = k then (k, v) :: m else (k2, v2) :: dictInsert k v m :=
  rfl

theorem dictPop_cons {α : Type} (k k2 : String) (v2 : α) (m : List (String × α)) :
    dictPop k ((k2, v2) :: m) = if k2 = k then m else (k2, v2) :: dictPop k m :=
  rfl

theorem assocLookup_append {α : Type} (t : String) :
    ∀ l₁ l₂ : List (String × α), assocLookup t (l₁ ++ l₂) =
      match assocLookup t l₁ with
      | some v => some v
      | none => assocLookup t l₂
  | [], _ => rfl
  | (k, v) :: rest, l₂ => by
    rw [List.cons_append, assocLookup_cons, assocLookup_cons]
    by_cases h : k = t
    · rw [if_pos h, if_pos h]
    · rw [if_neg h, if_neg h, assocLookup_append t rest l₂]

theorem assocLookup_mem {α : Type} {t : String} {v : α} :
    ∀ {m : List (String × α)}, assocLookup t m = some v → (t, v) ∈ m
  | [], h => by exact absurd h (by simp [assocLookup])
  | (k2, w) :: rest, h => by
    rw [assocLookup_cons] at h
    split_ifs at h with hk
    · injection h with hw
      subst hw
      subst hk
      exact List.mem_cons_self _ _
    · exact List.mem_cons_of_mem _ (assocLookup_mem h)

theorem assocLookup_none_of_not_mem {α : Type} {k : String} :
    ∀ {m : List (String × α)}, k ∉ m.map Prod.fst → assocLookup k m = none
  | [], _ => rfl
  | (k2, v) :: rest, h => by
    have h2 : ¬ k2 = k := fun he => h (by simp [he])
    rw [assocLookup_cons, if_neg h2]
    exact assocLookup_none_of_not_mem (fun hm => h (by simp [hm]))

theorem assocLookup_isSome_of_mem {α : Type} {k : String} :
    ∀ {m : List (String × α)}, k ∈ m.map Prod.fst → (assocLookup k m).isSome = true
  | [], h => by simp at h
  | (k2, v) :: rest, h => by
    rw [assocLookup_cons]
    by_cases hk : k2 = k
    · rw [if_pos hk]
      rfl
    · rw [if_neg hk]
      rw [List.map_cons] at h
      rcases List.mem_cons.mp h with h' | h'
      · exact absurd h'.symm hk
      · exact assocLookup_isSome_of_mem h'

theorem assocLookup_dictInsert_self {α : Type} (k : String) (v : α) :
    ∀ m : List (String × α), assocLookup k (dictInsert k v m) = some v
  | [] => by
    rw [show dictInsert k v ([] : List (String × α)) = [(k, v)] from rfl,
      assocLookup_cons, if_pos rfl]
  | (k2, v2) :: rest => by
    rw [dictInsert_cons]
    by_cases h : k2 = k
    · rw [if_pos h, assocLookup_cons, if_pos rfl]
    · rw [if_neg h, assocLookup_cons, if_neg h, assocLookup_dictInsert_self k v rest]

theorem assocLookup_dictInsert_ne {α : Type} {k k' : String} (h : k' ≠ k) (v : α) :
    ∀ m : List (String × α), assocLookup k' (dictInsert k v m) = assocLookup k' m
  | [] => by
    have h2 : ¬ k = k' := fun he => h he.symm
    rw [show dictInsert k v ([] : List (String × α)) = [(k, v)] from rfl,
      assocLookup_cons, if_neg h2]
  | (k2, v2) :: rest => by
    rw [dictInsert_cons]
    by_cases h2 : k2 = k
    · have h3 : ¬ k = k' := fun he => h he.symm
      have h4 : ¬ k2 = k' := fun he => h3 (h2.symm.trans he)
      rw [if_pos h2, assocLookup_cons, assocLookup_cons, if_neg h3, if_neg h4]
    · rw [if_neg h2, assocLookup_cons, assocLookup_cons,
        assocLookup_dictInsert_ne h v rest]

theorem dictPop_sublist {α : Type} (k : String) :
    ∀ m : List (String × α), (dictPop k m).Sublist m
  | [] => List.Sublist.refl []
  | (k2, v2) :: rest => by
    rw [dictPop_cons]
    by_cases h : k2 = k
    · rw [if_pos h]
      exact List.sublist_cons_self (k2, v2) rest
    · rw [if_neg h]
      exact (dictPop_sublist k rest).cons₂ (k2, v2)

theorem assocLookup_dictPop_ne {α : Type} {k k' : String} (h : k' ≠ k) :
    ∀ m : List (String × α), assocLookup k' (dictPop k m) = assocLookup k' m
  | [] => rfl
  | (k2, v2) :: rest => by
    rw [dictPop_cons]
    by_cases h2 : k2 = k
    · have h3 : ¬ k2 = k' := fun he => h (he.symm.trans h2)
      rw [if_pos h2, assocLookup_cons, if_neg h3]
    · rw [if_neg h2, assocLookup_cons, assocLookup_cons, assocLookup_dictPop_ne h rest]

theorem assocLookup_dictPop_self {α : Type} (k : String) :
    ∀ m : List (String × α), (m.map Prod.fst).Nodup →
      assocLookup k (dictPop k m) = none
  | [], _ => rfl
  | (k2, v2) :: rest, hnd => by
    rw [List.map_cons] at hnd
    have hnd' := List.nodup_cons.mp hnd
    rw [dictPop_cons]
    by_cases h : k2 = k
    · rw [if_pos h]
      refine assocLookup_none_of_not_mem ?_
      intro hmem
      exact hnd'.1 (h ▸ hmem)
    · rw [if_neg h, assocLookup_cons, if_neg h]
      exact assocLookup_dictPop_self k rest hnd'.2

theorem dictInsert_keys_sub {α : Type} (k : String) (v : α) :
    ∀ m : List (String × α), ∀ x ∈ (dictInsert k v m).map Prod.fst,
      x = k ∨ x ∈ m.map Prod.fst
  | [] => by
    intro x hx
    rw [show dictInsert k v ([] : List (String × α)) = [(k, v)] from rfl,
      List.map_cons, List.map_nil] at hx
    rcases List.mem_cons.mp hx with hx | hx
    · exact Or.inl hx
    · exact absurd hx (List.not_mem_nil x)
  | (k2, v2) :: rest => by
    intro x hx
    rw [dictInsert_cons] at hx
    by_cases h : k2 = k
    · rw [if_pos h, List.map_cons] at hx
      rcases List.mem_cons.mp hx with hx | hx
      · exact Or.inl hx
      · exact Or.inr (by rw [List.map_cons]; exact List.mem_cons_of_mem _ hx)
    · rw [if_neg h, List.map_cons] at hx
      rcases List.mem_cons.mp hx with hx | hx
      · exact Or.inr (by rw [List.map_cons]; exact hx ▸ List.mem_cons_self _ _)
      · rcases dictInsert_keys_sub k v rest x hx with h' | h'
        · exact Or.inl h'
        · exact Or.inr (by rw [List.map_cons]; exact List.mem_cons_of_mem _ h')

theorem dictInsert_keys_nodup {α : Type} (k : String) (v : α) :
    ∀ m : List (String × α), (m.map Prod.fst).Nodup →
      ((dictInsert k v m).map Prod.fst).Nodup
  | [], _ => by
    rw [show dictInsert k v ([] : List (String × α)) = [(k, v)] from rfl]
    simp
  | (k2, v2) :: rest, hnd => by
    rw [List.map_cons] at hnd
    have hnd' := List.nodup_cons.mp hnd
    rw [dictInsert_cons]
    by_cases h : k2 = k
    · rw [if_pos h, List.map_cons]
      refine List.nodup_cons.mpr ⟨?_, hnd'.2⟩
      intro hmem
      exact hnd'.1 (h ▸ hmem)
    · rw [if_neg h, List.map_cons]
      have htail := dictInsert_keys_nodup k v rest hnd'.2
      have hhead : (k2, v2).1 ∉ (dictInsert k v rest).map Prod.fst := by
        intro hmem
        rcases dictInsert_keys_sub k v rest (k2, v2).1 hmem with h' | h'
        · exact h h'
        · exact hnd'.1 h'
      exact List.nodup_cons.mpr ⟨hhead, htail⟩

/-- The spec's description of the Aggregator's tier phase (4.5): the four
tiers in fixed order Top-level, Priority, Normal, Append, each sorted by
path, threading the pending-companion map from tier to tier.  Named after
the spec to be compared with the operational `emitTiers` fold. -/
def specOrderedEmission (st : ScanState) : String :=
  (emitFiles st.inChain st.specials (sortPath st.top) st.tenders).1 ++
  ((emitFiles st.inChain st.specials (sortPath st.priority)
      (emitFiles st.inChain st.specials (sortPath st.top) st.tenders).2).1 ++
  ((emitFiles st.inChain st.specials (sortPath st.normal)
      (emitFiles st.inChain st.specials (sortPath st.priority)
        (emitFiles st.inChain st.specials (sortPath st.top) st.tenders).2).2).1 ++
  ((emitFiles st.inChain st.specials (sortPath st.appendT)
      (emitFiles st.inChain st.specials (sortPath st.normal)
        (emitFiles st.inChain st.specials (sortPath st.priority)
          (emitFiles st.inChain st.specials (sortPath st.top) st.tenders).2).2).2).1 ++
    "")))

/-- A tree whose `LMS_4F.pnml` chain has its follower `MR_3835.pnml`
duplicated in two subdirectories. -/
def t8cex : List FileEntry :=
  baseTree ++
  [⟨["Locomotive_Steam", "LMS_4F.pnml"], "lms4f"⟩,
   ⟨["A", "MR_3835.pnml"], "a"⟩,
   ⟨["B", "MR_3835.pnml"], "b"⟩,
   ⟨["T", "MR_Tenders.pnml"], "mrt"⟩,
   ⟨["Ch", "LMS_Fowler_2P.pnml"], "f2p"⟩,
   ⟨["Ch", "LMS_Fowler_4P.pnml"], "f4p"⟩]

/-- A tree with one fragment in each of the four tiers. -/
def t4w : List FileEntry :=
  baseTree ++
  [⟨["Zed.pnml"], "z"⟩, ⟨["p", "priority", "P.pnml"], "p"⟩,
   ⟨["W", "N.pnml"], "n"⟩, ⟨["q", "append", "A.pnml"], "a"⟩]

/-- One uniquely-keyed companion and its steam primary, first enumeration. -/
def t10w1 : List FileEntry :=
  baseTree ++
  [⟨["Locomotive_Steam", "MR_Loco.pnml"], "loco"⟩,
   ⟨["T", "MR_Tenders.pnml"], "T1"⟩]

/-- The same set of files as `t10w1`, enumerated in another order. -/
def t10w2 : List FileEntry :=
  [⟨["T", "MR_Tenders.pnml"], "T1"⟩,
   ⟨["Locomotive_Steam", "MR_Loco.pnml"], "loco"⟩] ++ baseTree

/-- C1: the claim says a source tree with only `grf.pnml` and
`railtypes.pnml` succeeds with the optional blocks merely omitted.  The code
disagrees: the required-copy loop of `main` calls `copy_file` on every
`KeyFiles` entry, and `copy_file` raises on the absent `sounds.pnml`, so the
run aborts with no artifact.  This theorem evaluates the pipeline at the
failing input of the code_bug record. -/
theorem C1_missing_optional_aborts :
    mainRun "test" "src" "lang" "gfx" c1fs =
      (Except.error "The file <src/sounds.pnml> does not exist.", []) := by
  rfl

/-- C2: the claim says the pipeline operates on the caller-supplied source,
language and graphics directories.  The code disagrees: `main` re-assigns
the literals `src`/`lang`/`gfx` (lines 227-229), so every invocation behaves
exactly like the default one, and with an `altsrc` override the output is
still built from the tree under `src` (whose contents are `G`, `R`, ...). -/
theorem C2_directory_overrides_ignored :
    (∀ g s l x fs, mainRun g s l x fs = mainRun g "src" "lang" "gfx" fs) ∧
      mainRun "out" "altsrc" "altlang" "altgfx" c2fs =
        (Except.ok baseBuf, [("build/out.nml", baseBuf)]) :=
  ⟨fun _ _ _ _ _ => rfl, by rfl⟩

/-- C3 counterexample: the chain follower `MR_Tenders.pnml` of trigger
`LMS_4F.pnml` appears twice in the output of `t3cex` — once spliced after
its trigger and once more as a tender companion before the steam primary
`MR_Extra.pnml` — refuting "none of F1..Fn appears anywhere else in the
output". -/
theorem C3_follower_reappears_counterexample :
    (buildNml t3cex).isOk = true ∧
      countSubstr (okD (buildNml t3cex)) "// MR_Tenders.pnml\n" = 2 := by
  exact ⟨rfl, rfl⟩

/-- C5 counterexample: in `t5cex` the tender `MR_Tenders.pnml` is registered
as a companion for prefix `MR`, is never matched by any primary (it is still
pending when the run ends), and yet its block appears in the output via
chain splicing — refuting "a companion registered but never matched ... does
not appear in the output". -/
theorem C5_unmatched_companion_appears_counterexample :
    assocLookup "MR" (scanOf t5cex).tenders = some ⟨["T", "MR_Tenders.pnml"], "mrt"⟩ ∧
      assocLookup "MR" (emitResult t5cex).2 = some ⟨["T", "MR_Tenders.pnml"], "mrt"⟩ ∧
      countSubstr (okD (buildNml t5cex)) "// MR_Tenders.pnml\n" = 1 := by
  exact ⟨rfl, rfl, rfl⟩

/-- C6 counterexample: for the companion/primary pair of `t6cex` the output
contains the companion's block immediately BEFORE the primary's block and
never after it, refuting "splices the companion's block in immediately after
the primary's block". -/
theorem C6_companion_precedes_counterexample :
    (buildNml t6cex).isOk = true ∧
      countSubstr (okD (buildNml t6cex)) (emitEntry c6tender ++ emitEntry c6primary) = 1 ∧
      countSubstr (okD (buildNml t6cex)) (emitEntry c6primary ++ emitEntry c6tender) = 0 := by
  exact ⟨rfl, rfl, rfl⟩

/-- C7 counterexample: in `t7cex` the file `priority/sounds.pnml` carries a
Required Fragment Set name yet is placed in the Priority tier, so the name
`sounds.pnml` is emitted twice — refuting "excluded from tier placement
wherever it is located in the source tree ... exactly once". -/
theorem C7_required_name_tiered_counterexample :
    (buildNml t7cex).isOk = true ∧
      countSubstr (okD (buildNml t7cex)) "// sounds.pnml\n" = 2 := by
  exact ⟨rfl, rfl⟩

/-- C10 counterexample: `t10a` and `t10b` contain the same set of files
(they are permutations, i.e. two enumerations of one unchanged tree), both
runs succeed, yet the output buffers differ: the two tender files share the
prefix key `MR` and the last-scanned one wins the companion registration. -/
theorem C10_enumeration_order_counterexample :
    t10a.Perm t10b ∧
      (buildNml t10a).isOk = true ∧ (buildNml t10b).isOk = true ∧
      okD (buildNml t10a) ≠ okD (buildNml t10b) := by
  refine ⟨by decide, rfl, rfl, by decide⟩

/-- C9: no partial artifact is ever written: `write_file` runs once, after
the aggregation finished; a failing run writes nothing and a successful run
writes exactly one artifact holding the complete buffer. -/
theorem C9_no_partial_artifact (g s l x : String) (fs : FS) :
    (mainRun g s l x fs).2 =
      match (mainRun g s l x fs).1 with
      | Except.error _ => []
      | Except.ok b => [("build/" ++ g ++ ".nml", b)] := by
  unfold mainRun
  cases checkStructure fs "src" "gfx" "lang"
  · rfl
  · cases buildNml (fs.treeOf "src") <;> rfl

/-! ### Scanning-loop structure lemmas -/

theorem tierStep_inChain (f : FileEntry) (st : ScanState) :
    (tierStep f st).inChain = st.inChain := by
  unfold tierStep
  split_ifs <;> rfl

theorem tierStep_specials (f : FileEntry) (st : ScanState) :
    (tierStep f st).specials = st.specials := by
  unfold tierStep
  split_ifs <;> rfl

theorem tierStep_top (f : FileEntry) (st : ScanState) :
    (tierStep f st).top = st.top ++ (if topPredB f then [f] else []) := by
  unfold tierStep
  split_ifs <;> simp_all [topPredB, isTopLevel, isKeyName]

theorem tierStep_priority (f : FileEntry) (st : ScanState) :
    (tierStep f st).priority = st.priority ++ (if prioPredB f then [f] else []) := by
  unfold tierStep
  split_ifs <;> simp_all [prioPredB, isTopLevel]

theorem tierStep_appendT (f : FileEntry) (st : ScanState) :
    (tierStep f st).appendT = st.appendT ++ (if appPredB f then [f] else []) := by
  unfold tierStep
  split_ifs <;> simp_all [appPredB, isTopLevel]

theorem tierStep_tenders (f : FileEntry) (st : ScanState) :
    (tierStep f st).tenders =
      (if tenderPredB f then dictInsert (tKey f) f st.tenders else st.tenders) := by
  unfold tierStep
  split_ifs <;> simp_all [tenderPredB, isTopLevel, tKey]

theorem tierStep_normal (f : FileEntry) (st : ScanState) :
    (tierStep f st).normal = st.normal ++
      (if normalBaseB f = true ∧ fileName f ∉ st.inChain then [f] else []) := by
  unfold tierStep
  split_ifs <;> simp_all [normalBaseB, isTopLevel, isKeyName]

theorem scanStep_pos {tree : List FileEntry} {st : ScanState} {f : FileEntry}
    (hc : isTrigger (fileName f) = true ∧ fileName f ∉ st.inChain) :
    scanStep tree st f =
      match resolveFollowers tree (followersOf (fileName f)) with
      | Except.error e => Except.error e
      | Except.ok rs =>
        Except.ok (tierStep f
          { st with inChain := st.inChain ++ followersOf (fileName f),
                    specials := st.specials ++ [(fileName f, rs)] }) := by
  unfold scanStep
  rw [if_pos hc]

theorem scanStep_neg {tree : List FileEntry} {st : ScanState} {f : FileEntry}
    (hc : ¬(isTrigger (fileName f) = true ∧ fileName f ∉ st.inChain)) :
    scanStep tree st f = Except.ok (tierStep f st) := by
  unfold scanStep
  rw [if_neg hc]

theorem scanStep_ok_top {tree : List FileEntry} {st : ScanState} {f : FileEntry}
    {st' : ScanState} (h : scanStep tree st f = Except.ok st') :
    st'.top = st.top ++ (if topPredB f then [f] else []) := by
  by_cases hc : isTrigger (fileName f) = true ∧ fileName f ∉ st.inChain
  · rw [scanStep_pos hc] at h
    cases hr : resolveFollowers tree (followersOf (fileName f)) with
    | error e => rw [hr] at h; cases h
    | ok rs =>
      rw [hr] at h
      injection h with h'
      subst h'
      rw [tierStep_top]
  · rw [scanStep_neg hc] at h
    injection h with h'
    subst h'
    rw [tierStep_top]

theorem scanStep_ok_priority {tree : List FileEntry} {st : ScanState} {f : FileEntry}
    {st' : ScanState} (h : scanStep tree st f = Except.ok st') :
    st'.priority = st.priority ++ (if prioPredB f then [f] else []) := by
  by_cases hc : isTrigger (fileName f) = true ∧ fileName f ∉ st.inChain
  · rw [scanStep_pos hc] at h
    cases hr : resolveFollowers tree (followersOf (fileName f)) with
    | error e => rw [hr] at h; cases h
    | ok rs =>
      rw [hr] at h
      injection h with h'
      subst h'
      rw [tierStep_priority]
  · rw [scanStep_neg hc] at h
    injection h with h'
    subst h'
    rw [tierStep_priority]

theorem scanStep_ok_appendT {tree : List FileEntry} {st : ScanState} {f : FileEntry}
    {st' : ScanState} (h : scanStep tree st f = Except.ok st') :
    st'.appendT = st.appendT ++ (if appPredB f then [f] else []) := by
  by_cases hc : isTrigger (fileName f) = true ∧ fileName f ∉ st.inChain
  · rw [scanStep_pos hc] at h
    cases hr : resolveFollowers tree (followersOf (fileName f)) with
    | error e => rw [hr] at h; cases h
    | ok rs =>
      rw [hr] at h
      injection h with h'
      subst h'
      rw [tierStep_appendT]
  · rw [scanStep_neg hc] at h
    injection h with h'
    subst h'
    rw [tierStep_appendT]

theorem scanStep_ok_tenders {tree : List FileEntry} {st : ScanState} {f : FileEntry}
    {st' : ScanState} (h : scanStep tree st f = Except.ok st') :
    st'.tenders = (if tenderPredB f then dictInsert (tKey f) f st.tenders else st.tenders) := by
  by_cases hc : isTrigger (fileName f) = true ∧ fileName f ∉ st.inChain
  · rw [scanStep_pos hc] at h
    cases hr : resolveFollowers tree (followersOf (fileName f)) with
    | error e => rw [hr] at h; cases h
    | ok rs =>
      rw [hr] at h
      injection h with h'
      subst h'
      rw [tierStep_tenders]
  · rw [scanStep_neg hc] at h
    injection h with h'
    subst h'
    rw [tierStep_tenders]

theorem scanStep_ok_normal {tree : List FileEntry} {st : ScanState} {f : FileEntry}
    {st' : ScanState} (h : scanStep tree st f = Except.ok st') :
    st'.normal = st.normal ++
      (if normalBaseB f = true ∧ fileName f ∉ st'.inChain then [f] else []) := by
  by_cases hc : isTrigger (fileName f) = true ∧ fileName f ∉ st.inChain
  · rw [scanStep_pos hc] at h
    cases hr : resolveFollowers tree (followersOf (fileName f)) with
    | error e => rw [hr] at h; cases h
    | ok rs =>
      rw [hr] at h
      injection h with h'
      subst h'
      rw [tierStep_normal, tierStep_inChain]
  · rw [scanStep_neg hc] at h
    injection h with h'
    subst h'
    rw [tierStep_normal, tierStep_inChain]

theorem scanStep_ok_chain_pos {tree : List FileEntry} {st : ScanState} {f : FileEntry}
    {st' : ScanState} (h : scanStep tree st f = Except.ok st')
    (hc : isTrigger (fileName f) = true ∧ fileName f ∉ st.inChain) :
    st'.inChain = st.inChain ++ followersOf (fileName f) ∧
      ∃ rs, resolveFollowers tree (followersOf (fileName f)) = Except.ok rs ∧
        st'.specials = st.specials ++ [(fileName f, rs)] := by
  rw [scanStep_pos hc] at h
  cases hr : resolveFollowers tree (followersOf (fileName f)) with
  | error e => rw [hr] at h; cases h
  | ok rs =>
    rw [hr] at h
    injection h with h'
    subst h'
    exact ⟨by rw [tierStep_inChain], rs, rfl, by rw [tierStep_specials]⟩

theorem scanStep_ok_chain_neg {tree : List FileEntry} {st : ScanState} {f : FileEntry}
    {st' : ScanState} (h : scanStep tree st f = Except.ok st')
    (hc : ¬(isTrigger (fileName f) = true ∧ fileName f ∉ st.inChain)) :
    st'.inChain = st.inChain ∧ st'.specials = st.specials := by
  rw [scanStep_neg hc] at h
  injection h with h'
  subst h'
  exact ⟨by rw [tierStep_inChain], by rw [tierStep_specials]⟩

theorem scanStep_ok_inChain_ext {tree : List FileEntry} {st : ScanState} {f : FileEntry}
    {st' : ScanState} (h : scanStep tree st f = Except.ok st') :
    ∃ ext, st'.inChain = st.inChain ++ ext := by
  by_cases hc : isTrigger (fileName f) = true ∧ fileName f ∉ st.inChain
  · exact ⟨_, (scanStep_ok_chain_pos h hc).1⟩
  · exact ⟨[], by rw [(scanStep_ok_chain_neg h hc).1, List.append_nil]⟩

theorem scanStep_error_of {tree : List FileEntry} {st : ScanState} {f : FileEntry}
    {e : String} (hc : isTrigger (fileName f) = true ∧ fileName f ∉ st.inChain)
    (hr : resolveFollowers tree (followersOf (fileName f)) = Except.error e) :
    scanStep tree st f = Except.error e := by
  rw [scanStep_pos hc, hr]

theorem scanList_cons (tree : List FileEntry) (st : ScanState) (f : FileEntry)
    (rest : List FileEntry) :
    scanList tree st (f :: rest) =
      match scanStep tree st f with
      | Except.error e => Except.error e
      | Except.ok st2 => scanList tree st2 rest := rfl

theorem scanList_ok_top {tree : List FileEntry} :
    ∀ {l : List FileEntry} {st st' : ScanState}, scanList tree st l = Except.ok st' →
      st'.top = st.top ++ l.filter topPredB
  | [], st, st', h => by
    injection h with h'
    subst h'
    simp
  | f :: rest, st, st', h => by
    rw [scanList_cons] at h
    cases hs : scanStep tree st f with
    | error e => rw [hs] at h; cases h
    | ok st2 =>
      rw [hs] at h
      have ih := scanList_ok_top h
      rw [ih, scanStep_ok_top hs, List.filter_cons]
      by_cases hp : topPredB f <;> simp [hp]

theorem scanList_ok_priority {tree : List FileEntry} :
    ∀ {l : List FileEntry} {st st' : ScanState}, scanList tree st l = Except.ok st' →
      st'.priority = st.priority ++ l.filter prioPredB
  | [], st, st', h => by
    injection h with h'
    subst h'
    simp
  | f :: rest, st, st', h => by
    rw [scanList_cons] at h
    cases hs : scanStep tree st f with
    | error e => rw [hs] at h; cases h
    | ok st2 =>
      rw [hs] at h
      have ih := scanList_ok_priority h
      rw [ih, scanStep_ok_priority hs, List.filter_cons]
      by_cases hp : prioPredB f <;> simp [hp]

theorem scanList_ok_appendT {tree : List FileEntry} :
    ∀ {l : List FileEntry} {st st' : ScanState}, scanList tree st l = Except.ok st' →
      st'.appendT = st.appendT ++ l.filter appPredB
  | [], st, st', h => by
    injection h with h'
    subst h'
    simp
  | f :: rest, st, st', h => by
    rw [scanList_cons] at h
    cases hs : scanStep tree st f with
    | error e => rw [hs] at h; cases h
    | ok st2 =>
      rw [hs] at h
      have ih := scanList_ok_appendT h
      rw [ih, scanStep_ok_appendT hs, List.filter_cons]
      by_cases hp : appPredB f <;> simp [hp]

theorem scanList_inChain_mono {tree : List FileEntry} :
    ∀ {l : List FileEntry} {st st' : ScanState}, scanList tree st l = Except.ok st' →
      ∀ n, n ∈ st.inChain → n ∈ st'.inChain
  | [], st, st', h => by
    injection h with h'
    subst h'
    exact fun n hn => hn
  | f :: rest, st, st', h => by
    rw [scanList_cons] at h
    cases hs : scanStep tree st f with
    | error e => rw [hs] at h; cases h
    | ok st2 =>
      rw [hs] at h
      intro n hn
      obtain ⟨ext, hext⟩ := scanStep_ok_inChain_ext hs
      exact scanList_inChain_mono h n (hext ▸ List.mem_append_left ext hn)

theorem scanList_tenders_lastD {tree : List FileEntry} :
    ∀ {l : List FileEntry} {st st' : ScanState}, scanList tree st l = Except.ok st' →
      ∀ k, assocLookup k st'.tenders =
        lastD (l.filter (fun f => tenderPredB f && decide (tKey f = k)))
          (assocLookup k st.tenders)
  | [], st, st', h => by
    injection h with h'
    subst h'
    intro k
    rfl
  | f :: rest, st, st', h => by
    rw [scanList_cons] at h
    cases hs : scanStep tree st f with
    | error e => rw [hs] at h; cases h
    | ok st2 =>
      rw [hs] at h
      intro k
      have ih := scanList_tenders_lastD h k
      rw [ih, List.filter_cons]
      have ht := scanStep_ok_tenders hs
      by_cases hp : tenderPredB f
      · by_cases hk : tKey f = k
        · have : (tenderPredB f && decide (tKey f = k)) = true := by
            rw [hp, hk]
            simp
          rw [if_pos this]
          show lastD _ _ = lastD _ (some f)
          congr 1
          rw [ht, if_pos hp, hk]
          exact assocLookup_dictInsert_self k f st.tenders
        · have : (tenderPredB f && decide (tKey f = k)) = false := by
            simp [hk]
          rw [this]
          simp only [Bool.false_eq_true, if_false]
          congr 1
          rw [ht, if_pos hp]
          exact assocLookup_dictInsert_ne (fun he => hk he.symm) f st.tenders
      · have : (tenderPredB f && decide (tKey f = k)) = false := by
          simp [hp]
        rw [this]
        simp only [Bool.false_eq_true, if_false]
        congr 1
        rw [ht, if_neg hp]

theorem followers_not_triggers : ∀ n ∈ allFollowerNames, isTrigger n = false := by
  decide

theorem followersOf_sub_all {t : String} (h : isTrigger t = true) :
    ∀ n ∈ followersOf t, n ∈ allFollowerNames := by
  intro n hn
  unfold isTrigger at h
  cases hl : assocLookup t SpecialOrderFiles with
  | none => rw [hl] at h; cases h
  | some fs =>
    have hmem := assocLookup_mem hl
    unfold followersOf at hn
    rw [hl] at hn
    simp only [Option.getD_some] at hn
    unfold allFollowerNames
    exact List.mem_join.mpr ⟨fs, List.mem_map_of_mem Prod.snd hmem, hn⟩

theorem trigger_fresh {st : ScanState}
    (hInv : ∀ n ∈ st.inChain, n ∈ allFollowerNames)
    {t : String} (ht : isTrigger t = true) : t ∉ st.inChain := by
  intro hmem
  have hf := followers_not_triggers t (hInv t hmem)
  rw [ht] at hf
  cases hf

theorem scanStep_inChain_names {tree : List FileEntry} {st : ScanState}
    {f : FileEntry} {st' : ScanState} (h : scanStep tree st f = Except.ok st')
    (hInv : ∀ n ∈ st.inChain, n ∈ allFollowerNames) :
    ∀ n ∈ st'.inChain, n ∈ allFollowerNames := by
  by_cases hc : isTrigger (fileName f) = true ∧ fileName f ∉ st.inChain
  · obtain ⟨hic, _⟩ := scanStep_ok_chain_pos h hc
    intro n hn
    rw [hic] at hn
    rcases List.mem_append.mp hn with hn | hn
    · exact hInv n hn
    · exact followersOf_sub_all hc.1 n hn
  · obtain ⟨hic, _⟩ := scanStep_ok_chain_neg h hc
    intro n hn
    rw [hic] at hn
    exact hInv n hn

theorem scanList_inChain_names {tree : List FileEntry} :
    ∀ {l : List FileEntry} {st st' : ScanState}, scanList tree st l = Except.ok st' →
      (∀ n ∈ st.inChain, n ∈ allFollowerNames) →
      ∀ n ∈ st'.inChain, n ∈ allFollowerNames
  | [], st, st', h => by
    injection h with h'
    subst h'
    exact fun hInv => hInv
  | f :: rest, st, st', h => by
    rw [scanList_cons] at h
    cases hs : scanStep tree st f with
    | error e => rw [hs] at h; cases h
    | ok st2 =>
      rw [hs] at h
      intro hInv
      exact scanList_inChain_names h (scanStep_inChain_names hs hInv)

theorem scanList_inChain_sub {tree : List FileEntry} :
    ∀ {l : List FileEntry} {st st' : ScanState}, scanList tree st l = Except.ok st' →
      ∀ n, n ∈ st'.inChain → n ∈ st.inChain ∨
        ∃ f ∈ l, isTrigger (fileName f) = true ∧ n ∈ followersOf (fileName f)
  | [], st, st', h => by
    injection h with h'
    subst h'
    exact fun n hn => Or.inl hn
  | f :: rest, st, st', h => by
    rw [scanList_cons] at h
    cases hs : scanStep tree st f with
    | error e => rw [hs] at h; cases h
    | ok st2 =>
      rw [hs] at h
      intro n hn
      rcases scanList_inChain_sub h n hn with hn2 | ⟨g, hg, htr, hfo⟩
      · by_cases hc : isTrigger (fileName f) = true ∧ fileName f ∉ st.inChain
        · obtain ⟨hic, _⟩ := scanStep_ok_chain_pos hs hc
          rw [hic] at hn2
          rcases List.mem_append.mp hn2 with hn3 | hn3
          · exact Or.inl hn3
          · exact Or.inr ⟨f, List.mem_cons_self f rest, hc.1, hn3⟩
        · obtain ⟨hic, _⟩ := scanStep_ok_chain_neg hs hc
          rw [hic] at hn2
          exact Or.inl hn2
      · exact Or.inr ⟨g, List.mem_cons_of_mem f hg, htr, hfo⟩

theorem scanList_inChain_of_present {tree : List FileEntry} :
    ∀ {l : List FileEntry} {st st' : ScanState}, scanList tree st l = Except.ok st' →
      (∀ n ∈ st.inChain, n ∈ allFollowerNames) →
      ∀ f ∈ l, isTrigger (fileName f) = true →
        ∀ n ∈ followersOf (fileName f), n ∈ st'.inChain
  | [], st, st', h => by
    intro _ f hf
    exact absurd hf (List.not_mem_nil f)
  | f0 :: rest, st, st', h => by
    rw [scanList_cons] at h
    cases hs : scanStep tree st f0 with
    | error e => rw [hs] at h; cases h
    | ok st2 =>
      rw [hs] at h
      intro hInv f hf htr n hn
      rcases List.mem_cons.mp hf with hf | hf
      · subst hf
        have hfresh : fileName f ∉ st.inChain := trigger_fresh hInv htr
        obtain ⟨hic, _⟩ := scanStep_ok_chain_pos hs ⟨htr, hfresh⟩
        refine scanList_inChain_mono h n ?_
        rw [hic]
        exact List.mem_append_right st.inChain hn
      · exact scanList_inChain_of_present h (scanStep_inChain_names hs hInv) f hf htr n hn

theorem scanList_normal_filter {tree : List FileEntry} :
    ∀ {l : List FileEntry} {st st' : ScanState}, scanList tree st l = Except.ok st' →
      st'.normal.filter (fun f => decide (fileName f ∉ st'.inChain)) =
        st.normal.filter (fun f => decide (fileName f ∉ st'.inChain)) ++
          l.filter (fun f => normalBaseB f && decide (fileName f ∉ st'.inChain))
  | [], st, st', h => by
    injection h with h'
    subst h'
    simp
  | f :: rest, st, st', h => by
    rw [scanList_cons] at h
    cases hs : scanStep tree st f with
    | error e => rw [hs] at h; cases h
    | ok st2 =>
      rw [hs] at h
      have ih := scanList_normal_filter h
      have hn2 := scanStep_ok_normal hs
      rw [ih, hn2, List.filter_append, List.filter_cons]
      rw [List.append_assoc]
      congr 1
      by_cases hbase : normalBaseB f = true
      · by_cases hin2 : fileName f ∉ st2.inChain
        · rw [if_pos ⟨hbase, hin2⟩]
          by_cases hfin : fileName f ∉ st'.inChain
          · have : (normalBaseB f && decide (fileName f ∉ st'.inChain)) = true := by
              rw [hbase]
              simp [hfin]
            rw [this]
            simp [hfin]
          · have : (normalBaseB f && decide (fileName f ∉ st'.inChain)) = false := by
              simp only [Bool.and_eq_false_iff]
              right
              simpa using hfin
            rw [this]
            simp [hfin]
        · rw [if_neg (fun hco => hin2 hco.2)]
          have hfin : fileName f ∈ st'.inChain :=
            scanList_inChain_mono h (fileName f) (not_not.mp hin2)
          have : (normalBaseB f && decide (fileName f ∉ st'.inChain)) = false := by
            simp only [Bool.and_eq_false_iff]
            right
            simpa using (not_not.mpr hfin)
          rw [this]
          simp
      · rw [if_neg (fun hco => hbase hco.1)]
        have : (normalBaseB f && decide (fileName f ∉ st'.inChain)) = false := by
          simp only [Bool.and_eq_false_iff]
          left
          simpa using hbase
        rw [this]
        simp

theorem scanStep_ok_specials_ext {tree : List FileEntry} {st : ScanState}
    {f : FileEntry} {st' : ScanState} (h : scanStep tree st f = Except.ok st') :
    st'.specials = st.specials ∨
      ∃ rs, resolveFollowers tree (followersOf (fileName f)) = Except.ok rs ∧
        isTrigger (fileName f) = true ∧
        st'.specials = st.specials ++ [(fileName f, rs)] := by
  by_cases hc : isTrigger (fileName f) = true ∧ fileName f ∉ st.inChain
  · obtain ⟨_, rs, hr, hsp⟩ := scanStep_ok_chain_pos h hc
    exact Or.inr ⟨rs, hr, hc.1, hsp⟩
  · exact Or.inl (scanStep_ok_chain_neg h hc).2

theorem scanList_specials_mono {tree : List FileEntry} :
    ∀ {l : List FileEntry} {st st' : ScanState}, scanList tree st l = Except.ok st' →
      ∀ t v, assocLookup t st.specials = some v → assocLookup t st'.specials = some v
  | [], st, st', h => by
    injection h with h'
    subst h'
    exact fun t v hv => hv
  | f :: rest, st, st', h => by
    rw [scanList_cons] at h
    cases hs : scanStep tree st f with
    | error e => rw [hs] at h; cases h
    | ok st2 =>
      rw [hs] at h
      intro t v hv
      refine scanList_specials_mono h t v ?_
      rcases scanStep_ok_specials_ext hs with hsp | ⟨rs, _, _, hsp⟩
      · rw [hsp]; exact hv
      · rw [hsp, assocLookup_append, hv]

theorem scanList_specials_value {tree : List FileEntry} :
    ∀ {l : List FileEntry} {st st' : ScanState}, scanList tree st l = Except.ok st' →
      (∀ t v, assocLookup t st.specials = some v →
        isTrigger t = true ∧ resolveFollowers tree (followersOf t) = Except.ok v) →
      ∀ t v, assocLookup t st'.specials = some v →
        isTrigger t = true ∧ resolveFollowers tree (followersOf t) = Except.ok v
  | [], st, st', h => by
    injection h with h'
    subst h'
    exact fun hInv => hInv
  | f :: rest, st, st', h => by
    rw [scanList_cons] at h
    cases hs : scanStep tree st f with
    | error e => rw [hs] at h; cases h
    | ok st2 =>
      rw [hs] at h
      intro hInv
      refine scanList_specials_value h ?_
      rcases scanStep_ok_specials_ext hs with hsp | ⟨rs, hr, htr, hsp⟩
      · rw [hsp]; exact hInv
      · intro t v hv
        rw [hsp, assocLookup_append] at hv
        cases hold : assocLookup t st.specials with
        | some w =>
          rw [hold] at hv
          simp only at hv
          injection hv with hv
          subst hv
          exact hInv t w hold
        | none =>
          rw [hold] at hv
          simp only at hv
          rw [assocLookup_cons] at hv
          split_ifs at hv with hk
          · injection hv with hv
            subst hv
            subst hk
            exact ⟨htr, hr⟩
          · exact absurd hv (by simp [assocLookup])

theorem scanList_specials_present {tree : List FileEntry} :
    ∀ {l : List FileEntry} {st st' : ScanState}, scanList tree st l = Except.ok st' →
      (∀ n ∈ st.inChain, n ∈ allFollowerNames) →
      ∀ f ∈ l, isTrigger (fileName f) = true →
        (assocLookup (fileName f) st'.specials).isSome = true
  | [], st, st', h => by
    intro _ f hf
    exact absurd hf (List.not_mem_nil f)
  | f0 :: rest, st, st', h => by
    rw [scanList_cons] at h
    cases hs : scanStep tree st f0 with
    | error e => rw [hs] at h; cases h
    | ok st2 =>
      rw [hs] at h
      intro hInv f hf htr
      rcases List.mem_cons.mp hf with hf | hf
      · subst hf
        have hfresh : fileName f ∉ st.inChain := trigger_fresh hInv htr
        obtain ⟨_, rs, hr, hsp⟩ := scanStep_ok_chain_pos hs ⟨htr, hfresh⟩
        have h2 : assocLookup (fileName f) st2.specials =
            match assocLookup (fileName f) st.specials with
            | some v => some v
            | none => some rs := by
          rw [hsp, assocLookup_append]
          cases assocLookup (fileName f) st.specials with
          | some w => rfl
          | none => rw [assocLookup_cons, if_pos rfl]
        cases hold : assocLookup (fileName f) st.specials with
        | some w =>
          rw [hold] at h2
          rw [scanList_specials_mono h (fileName f) w h2]
          rfl
        | none =>
          rw [hold] at h2
          rw [scanList_specials_mono h (fileName f) rs h2]
          rfl
      · exact scanList_specials_present h (scanStep_inChain_names hs hInv) f hf htr

theorem scanList_specials_keys {tree : List FileEntry} :
    ∀ {l : List FileEntry} {st st' : ScanState}, scanList tree st l = Except.ok st' →
      ∀ t, (assocLookup t st'.specials).isSome = true →
        (assocLookup t st.specials).isSome = true ∨ ∃ f ∈ l, fileName f = t
  | [], st, st', h => by
    injection h with h'
    subst h'
    exact fun t ht => Or.inl ht
  | f :: rest, st, st', h => by
    rw [scanList_cons] at h
    cases hs : scanStep tree st f with
    | error e => rw [hs] at h; cases h
    | ok st2 =>
      rw [hs] at h
      intro t ht
      rcases scanList_specials_keys h t ht with h2 | ⟨g, hg, hgt⟩
      · rcases scanStep_ok_specials_ext hs with hsp | ⟨rs, _, _, hsp⟩
        · rw [hsp] at h2
          exact Or.inl h2
        · rw [hsp, assocLookup_append] at h2
          cases hold : assocLookup t st.specials with
          | some w => exact Or.inl rfl
          | none =>
            rw [hold] at h2
            simp only at h2
            rw [assocLookup_cons] at h2
            split_ifs at h2 with hk
            · exact Or.inr ⟨f, List.mem_cons_self f rest, hk⟩
            · exact absurd h2 (by simp [assocLookup])
      · exact Or.inr ⟨g, List.mem_cons_of_mem f hg, hgt⟩

theorem scanList_tenders_keys_nodup {tree : List FileEntry} :
    ∀ {l : List FileEntry} {st st' : ScanState}, scanList tree st l = Except.ok st' →
      (st.tenders.map Prod.fst).Nodup → (st'.tenders.map Prod.fst).Nodup
  | [], st, st', h => by
    injection h with h'
    subst h'
    exact fun hnd => hnd
  | f :: rest, st, st', h => by
    rw [scanList_cons] at h
    cases hs : scanStep tree st f with
    | error e => rw [hs] at h; cases h
    | ok st2 =>
      rw [hs] at h
      intro hnd
      refine scanList_tenders_keys_nodup h ?_
      rw [scanStep_ok_tenders hs]
      by_cases hp : tenderPredB f
      · rw [if_pos hp]
        exact dictInsert_keys_nodup (tKey f) f st.tenders hnd
      · rw [if_neg hp]
        exact hnd

/-! ### Emission lemmas -/

theorem emitFiles_cons_skip {c : List String} {sp : List (String × List FileEntry)}
    {f : FileEntry} {rest : List FileEntry} {tm : List (String × FileEntry)}
    (hc : fileName f ∈ c) :
    emitFiles c sp (f :: rest) tm = emitFiles c sp rest tm := by
  unfold emitFiles
  rw [if_pos hc]
  cases rest <;> rfl

theorem emitFiles_cons_emit {c : List String} {sp : List (String × List FileEntry)}
    {f : FileEntry} {rest : List FileEntry} {tm : List (String × FileEntry)}
    (hc : fileName f ∉ c) :
    emitFiles c sp (f :: rest) tm =
      ((tenderSplice tm f).1 ++ emitEntry f ++ chainPart sp (fileName f) ++
        (emitFiles c sp rest (tenderSplice tm f).2).1,
       (emitFiles c sp rest (tenderSplice tm f).2).2) := by
  unfold emitFiles
  rw [if_neg hc]
  cases rest <;> rfl

theorem tKey_eq (f : FileEntry) : tKey f = prefixKey (stemOf (fileName f)) := rfl

theorem tenderSplice_skip {tm : List (String × FileEntry)} {f : FileEntry}
    (h : "Locomotive_Steam" ∉ fileParts f) : tenderSplice tm f = ("", tm) := by
  unfold tenderSplice
  rw [if_neg h]

theorem tenderSplice_miss {tm : List (String × FileEntry)} {f : FileEntry}
    (hst : "Locomotive_Steam" ∈ fileParts f)
    (h : assocLookup (tKey f) tm = none) : tenderSplice tm f = ("", tm) := by
  unfold tenderSplice
  rw [if_pos hst, ← tKey_eq, h]

theorem tenderSplice_hit {tm : List (String × FileEntry)} {f : FileEntry}
    {t : FileEntry} (hst : "Locomotive_Steam" ∈ fileParts f)
    (h : assocLookup (tKey f) tm = some t) :
    tenderSplice tm f = (emitEntry t, dictPop (tKey f) tm) := by
  unfold tenderSplice
  rw [if_pos hst, ← tKey_eq, h]

theorem emitFiles_filter_skip (c : List String) (sp : List (String × List FileEntry)) :
    ∀ (l : List FileEntry) (tm : List (String × FileEntry)),
      emitFiles c sp l tm =
        emitFiles c sp (l.filter (fun f => decide (fileName f ∉ c))) tm
  | [], _ => rfl
  | f :: rest, tm => by
    rw [List.filter_cons]
    by_cases hc : fileName f ∈ c
    · have hd : (decide (fileName f ∉ c)) = false := by simp [hc]
      rw [hd]
      simp only [Bool.false_eq_true, if_false]
      rw [emitFiles_cons_skip hc]
      exact emitFiles_filter_skip c sp rest tm
    · have hd : (decide (fileName f ∉ c)) = true := by simp [hc]
      rw [hd]
      simp only [if_true]
      rw [emitFiles_cons_emit hc, emitFiles_cons_emit hc,
        emitFiles_filter_skip c sp rest (tenderSplice tm f).2]

theorem tenderSplice_sublist (tm : List (String × FileEntry)) (f : FileEntry) :
    ((tenderSplice tm f).2).Sublist tm := by
  unfold tenderSplice
  by_cases hst : "Locomotive_Steam" ∈ fileParts f
  · rw [if_pos hst]
    cases assocLookup (prefixKey (stemOf (fileName f))) tm with
    | some t => exact dictPop_sublist _ tm
    | none => exact List.Sublist.refl tm
  · rw [if_neg hst]

theorem emitFiles_tenders_sublist (c : List String) (sp : List (String × List FileEntry)) :
    ∀ (l : List FileEntry) (tm : List (String × FileEntry)),
      ((emitFiles c sp l tm).2).Sublist tm
  | [], _ => List.Sublist.refl _
  | f :: rest, tm => by
    by_cases hc : fileName f ∈ c
    · rw [emitFiles_cons_skip hc]
      exact emitFiles_tenders_sublist c sp rest tm
    · rw [emitFiles_cons_emit hc]
      exact List.Sublist.trans
        (emitFiles_tenders_sublist c sp rest (tenderSplice tm f).2)
        (tenderSplice_sublist tm f)

theorem chainPart_congr {sp₁ sp₂ : List (String × List FileEntry)} (n : String)
    (h : assocLookup n sp₁ = assocLookup n sp₂) :
    chainPart sp₁ n = chainPart sp₂ n := by
  unfold chainPart
  rw [h]

theorem emitFiles_congr {c₁ c₂ : List String} {sp₁ sp₂ : List (String × List FileEntry)}
    (hc : ∀ n, n ∈ c₁ ↔ n ∈ c₂)
    (hsp : ∀ t, assocLookup t sp₁ = assocLookup t sp₂) :
    ∀ (l : List FileEntry) (tm₁ tm₂ : List (String × FileEntry)),
      (∀ k, assocLookup k tm₁ = assocLookup k tm₂) →
      (tm₁.map Prod.fst).Nodup → (tm₂.map Prod.fst).Nodup →
      (emitFiles c₁ sp₁ l tm₁).1 = (emitFiles c₂ sp₂ l tm₂).1 ∧
        (∀ k, assocLookup k (emitFiles c₁ sp₁ l tm₁).2 =
          assocLookup k (emitFiles c₂ sp₂ l tm₂).2)
  | [], tm₁, tm₂, htm, _, _ => ⟨rfl, htm⟩
  | f :: rest, tm₁, tm₂, htm, hnd₁, hnd₂ => by
    by_cases hcf : fileName f ∈ c₁
    · rw [emitFiles_cons_skip hcf, emitFiles_cons_skip ((hc _).mp hcf)]
      exact emitFiles_congr hc hsp rest tm₁ tm₂ htm hnd₁ hnd₂
    · rw [emitFiles_cons_emit hcf, emitFiles_cons_emit (fun h2 => hcf ((hc _).mpr h2))]
      have hts1 : (tenderSplice tm₁ f).1 = (tenderSplice tm₂ f).1 := by
        unfold tenderSplice
        by_cases hst : "Locomotive_Steam" ∈ fileParts f
        · simp only [if_pos hst]
          rw [htm (prefixKey (stemOf (fileName f)))]
          cases assocLookup (prefixKey (stemOf (fileName f))) tm₂ <;> rfl
        · simp only [if_neg hst]
      have hts2 : ∀ k, assocLookup k (tenderSplice tm₁ f).2 =
          assocLookup k (tenderSplice tm₂ f).2 := by
        unfold tenderSplice
        by_cases hst : "Locomotive_Steam" ∈ fileParts f
        · simp only [if_pos hst]
          rw [htm (prefixKey (stemOf (fileName f)))]
          cases assocLookup (prefixKey (stemOf (fileName f))) tm₂ with
          | some t =>
            intro k
            by_cases hk : k = prefixKey (stemOf (fileName f))
            · subst hk
              rw [assocLookup_dictPop_self _ _ hnd₁, assocLookup_dictPop_self _ _ hnd₂]
            · rw [assocLookup_dictPop_ne hk, assocLookup_dictPop_ne hk]
              exact htm k
          | none => exact htm
        · simp only [if_neg hst]
          exact htm
      have hndA : ((tenderSplice tm₁ f).2.map Prod.fst).Nodup :=
        List.Nodup.sublist ((tenderSplice_sublist tm₁ f).map Prod.fst) hnd₁
      have hndB : ((tenderSplice tm₂ f).2.map Prod.fst).Nodup :=
        List.Nodup.sublist ((tenderSplice_sublist tm₂ f).map Prod.fst) hnd₂
      have hstep := emitFiles_congr hc hsp rest (tenderSplice tm₁ f).2
        (tenderSplice tm₂ f).2 hts2 hndA hndB
      refine ⟨?_, hstep.2⟩
      rw [hts1, hstep.1, chainPart_congr (fileName f) (hsp (fileName f))]

/-! ### Lookup and resolver lemmas -/

theorem findTop_cons (g : FileEntry) (rest : List FileEntry) (n : String) :
    findTop (g :: rest) n = if g.relParts = [n] then some g else findTop rest n :=
  rfl

theorem findTop_some : ∀ {tree : List FileEntry} {n : String} {f : FileEntry},
    findTop tree n = some f → f ∈ tree ∧ f.relParts = [n]
  | [], n, f, h => by cases h
  | g :: rest, n, f, h => by
    rw [findTop_cons] at h
    split_ifs at h with hg
    · injection h with h'
      subst h'
      exact ⟨List.mem_cons_self _ _, hg⟩
    · have ih := findTop_some h
      exact ⟨List.mem_cons_of_mem _ ih.1, ih.2⟩

theorem findTop_none : ∀ {tree : List FileEntry} {n : String},
    findTop tree n = none → ∀ f ∈ tree, f.relParts ≠ [n]
  | [], n, _, f, hf => absurd hf (List.not_mem_nil f)
  | g :: rest, n, h, f, hf => by
    rw [findTop_cons] at h
    split_ifs at h with hg
    rcases List.mem_cons.mp hf with hf | hf
    · subst hf
      exact hg
    · exact findTop_none h f hf

theorem pathStr_congr {f g : FileEntry} (h : f.relParts = g.relParts) :
    pathStr f = pathStr g := by
  unfold pathStr fileParts
  rw [h]

theorem findTop_eq_of_perm {l₁ l₂ : List FileEntry} (hp : l₁.Perm l₂)
    (hnd : (l₁.map pathStr).Nodup) (n : String) : findTop l₁ n = findTop l₂ n := by
  cases h₁ : findTop l₁ n with
  | some f =>
    obtain ⟨hmem, hrel⟩ := findTop_some h₁
    cases h₂ : findTop l₂ n with
    | some g =>
      obtain ⟨hmem2, hrel2⟩ := findTop_some h₂
      have heq : f = g :=
        List.inj_on_of_nodup_map hnd hmem (hp.mem_iff.mpr hmem2)
          (pathStr_congr (hrel.trans hrel2.symm))
      rw [heq]
    | none =>
      exact absurd hrel (findTop_none h₂ f (hp.mem_iff.mp hmem))
  | none =>
    cases h₂ : findTop l₂ n with
    | some g =>
      obtain ⟨hmem2, hrel2⟩ := findTop_some h₂
      exact absurd hrel2 (findTop_none h₁ g (hp.mem_iff.mpr hmem2))
    | none => rfl

theorem requiredEmit_congr {l₁ l₂ : List FileEntry}
    (hft : ∀ n, findTop l₁ n = findTop l₂ n) :
    ∀ ns, requiredEmit l₁ ns = requiredEmit l₂ ns
  | [] => rfl
  | n :: ns => by
    unfold requiredEmit
    rw [hft n, requiredEmit_congr hft ns]

theorem requiredEmit_ok_join : ∀ {tree : List FileEntry} {ns : List String} {s : String},
    requiredEmit tree ns = Except.ok s →
      s = strConcat (ns.map (fun n =>
        copyBlock n (((findTop tree n).map FileEntry.content).getD "")))
  | _, [], s, h => by
    injection h with h'
    subst h'
    rfl
  | tree, n :: ns, s, h => by
    unfold requiredEmit at h
    cases hft : findTop tree n with
    | none => rw [hft] at h; cases h
    | some f =>
      rw [hft] at h
      cases hr : requiredEmit tree ns with
      | error e => rw [hr] at h; cases h
      | ok rest =>
        rw [hr] at h
        injection h with h'
        subst h'
        rw [requiredEmit_ok_join hr, List.map_cons, hft]
        rfl

theorem findSpecialFile_ok {tree : List FileEntry} {n : String} {f : FileEntry}
    (h : findSpecialFile tree n = Except.ok f) :
    tree.filter (fun g => decide (fileName g = n)) = [f] := by
  unfold findSpecialFile at h
  rcases hfl : tree.filter (fun g => decide (fileName g = n)) with _ | ⟨g, _ | ⟨g2, gs⟩⟩ <;>
    rw [hfl] at h
  · cases h
  · injection h with h'
    subst h'
    rfl
  · cases h

theorem findSpecialFile_zero {tree : List FileEntry} {n : String}
    (h : tree.filter (fun g => decide (fileName g = n)) = []) :
    findSpecialFile tree n = Except.error ("No file named '" ++ n ++ "' found") := by
  unfold findSpecialFile
  rw [h]

theorem findSpecialFile_multi {tree : List FileEntry} {n : String}
    (h : 2 ≤ (tree.filter (fun g => decide (fileName g = n))).length) :
    findSpecialFile tree n =
      Except.error ("Multiple files named '" ++ n ++ "' found") := by
  unfold findSpecialFile
  rcases hfl : tree.filter (fun g => decide (fileName g = n)) with _ | ⟨g, _ | ⟨g2, gs⟩⟩
  · rw [hfl] at h
    simp at h
  · rw [hfl] at h
    simp at h
  · rfl

theorem resolveFollowers_cons (tree : List FileEntry) (n : String) (ns : List String) :
    resolveFollowers tree (n :: ns) =
      match findSpecialFile tree n with
      | Except.error e => Except.error e
      | Except.ok f =>
        match resolveFollowers tree ns with
        | Except.error e => Except.error e
        | Except.ok rest => Except.ok (f :: rest) := rfl

theorem resolveFollowers_ok_names : ∀ {tree : List FileEntry} {ns : List String}
    {rs : List FileEntry}, resolveFollowers tree ns = Except.ok rs →
      rs.map fileName = ns
  | _, [], rs, h => by
    injection h with h'
    subst h'
    rfl
  | tree, n :: ns, rs, h => by
    rw [resolveFollowers_cons] at h
    cases hf : findSpecialFile tree n with
    | error e => rw [hf] at h; cases h
    | ok f =>
      rw [hf] at h
      cases hr : resolveFollowers tree ns with
      | error e => rw [hr] at h; cases h
      | ok rest =>
        rw [hr] at h
        injection h with h'
        subst h'
        have hmemf : f ∈ tree.filter (fun g => decide (fileName g = n)) := by
          rw [findSpecialFile_ok hf]
          exact List.mem_cons_self f []
        have hname : fileName f = n :=
          of_decide_eq_true ((List.mem_filter.mp hmemf).2)
        rw [List.map_cons, hname, resolveFollowers_ok_names hr]

theorem resolveFollowers_err_of_zero : ∀ {tree : List FileEntry} {ns : List String}
    {n : String}, n ∈ ns → tree.filter (fun g => decide (fileName g = n)) = [] →
      (resolveFollowers tree ns).isOk = false
  | tree, [], n, hn, _ => absurd hn (List.not_mem_nil n)
  | tree, m :: ns, n, hn, h0 => by
    rw [resolveFollowers_cons]
    rcases List.mem_cons.mp hn with hn | hn
    · subst hn
      rw [findSpecialFile_zero h0]
      rfl
    · cases hf : findSpecialFile tree m with
      | error e => rfl
      | ok f =>
        have ih := resolveFollowers_err_of_zero hn h0
        cases hr : resolveFollowers tree ns with
        | error e => rfl
        | ok rest => rw [hr] at ih; cases ih

theorem resolveFollowers_err_of_multi : ∀ {tree : List FileEntry} {ns : List String}
    {n : String}, n ∈ ns →
      2 ≤ (tree.filter (fun g => decide (fileName g = n))).length →
      (resolveFollowers tree ns).isOk = false
  | tree, [], n, hn, _ => absurd hn (List.not_mem_nil n)
  | tree, m :: ns, n, hn, h2 => by
    rw [resolveFollowers_cons]
    rcases List.mem_cons.mp hn with hn | hn
    · subst hn
      rw [findSpecialFile_multi h2]
      rfl
    · cases hf : findSpecialFile tree m with
      | error e => rfl
      | ok f =>
        have ih := resolveFollowers_err_of_multi hn h2
        cases hr : resolveFollowers tree ns with
        | error e => rfl
        | ok rest => rw [hr] at ih; cases ih

theorem findSpecialFile_perm {l₁ l₂ : List FileEntry} (hp : l₁.Perm l₂) {n : String}
    {f : FileEntry} (h : findSpecialFile l₁ n = Except.ok f) :
    findSpecialFile l₂ n = Except.ok f := by
  have h1 := findSpecialFile_ok h
  have h2 : l₂.filter (fun g => decide (fileName g = n)) = [f] :=
    List.perm_singleton.mp ((hp.filter _).symm.trans (by rw [h1]))
  unfold findSpecialFile
  rw [h2]

theorem resolveFollowers_perm {l₁ l₂ : List FileEntry} (hp : l₁.Perm l₂) :
    ∀ {ns : List String} {rs : List FileEntry},
      resolveFollowers l₁ ns = Except.ok rs → resolveFollowers l₂ ns = Except.ok rs
  | [], rs, h => h
  | n :: ns, rs, h => by
    rw [resolveFollowers_cons] at h ⊢
    cases hf : findSpecialFile l₁ n with
    | error e => rw [hf] at h; cases h
    | ok f =>
      rw [hf] at h
      rw [findSpecialFile_perm hp hf]
      cases hr : resolveFollowers l₁ ns with
      | error e => rw [hr] at h; cases h
      | ok rest =>
        rw [hr] at h
        rw [resolveFollowers_perm hp hr]
        exact h

theorem scanList_err_of_bad_trigger {tree : List FileEntry} :
    ∀ {l : List FileEntry} {st : ScanState},
      (∀ n ∈ st.inChain, n ∈ allFollowerNames) →
      ∀ f ∈ l, isTrigger (fileName f) = true →
        (resolveFollowers tree (followersOf (fileName f))).isOk = false →
        (scanList tree st l).isOk = false
  | [], st, _, f, hf, _, _ => absurd hf (List.not_mem_nil f)
  | f0 :: rest, st, hInv, f, hf, htr, hre => by
    rw [scanList_cons]
    rcases List.mem_cons.mp hf with hf | hf
    · subst hf
      have hfresh := trigger_fresh hInv htr
      rw [scanStep_pos ⟨htr, hfresh⟩]
      cases hr : resolveFollowers tree (followersOf (fileName f)) with
      | error e => rfl
      | ok rs =>
        rw [hr] at hre
        simp [Except.isOk, Except.toBool] at hre
    · cases hs : scanStep tree st f0 with
      | error e => rfl
      | ok st2 =>
        exact scanList_err_of_bad_trigger (scanStep_inChain_names hs hInv) f hf htr hre

theorem buildNml_err_of_scan {tree : List FileEntry}
    (h : (scanTree tree).isOk = false) : (buildNml tree).isOk = false := by
  unfold buildNml
  cases hre : requiredEmit tree KeyFiles with
  | error e => rfl
  | ok req =>
    cases hs : scanTree tree with
    | error e => rfl
    | ok st =>
      rw [hs] at h
      simp [Except.isOk, Except.toBool] at h

/-- C8: chain resolution searches the whole tree per follower name: on
success the resolved entries carry exactly the declared names in declared
order; a follower with zero matches or with two or more matches makes the
resolver fail; and a tree containing a trigger one of whose followers is
duplicated makes the whole pipeline abort. -/
theorem C8_chain_resolver (tree : List FileEntry) (ns : List String) :
    (∀ rs, resolveFollowers tree ns = Except.ok rs → rs.map fileName = ns) ∧
    (∀ n ∈ ns, tree.filter (fun g => decide (fileName g = n)) = [] →
      (resolveFollowers tree ns).isOk = false) ∧
    (∀ n ∈ ns, 2 ≤ (tree.filter (fun g => decide (fileName g = n))).length →
      (resolveFollowers tree ns).isOk = false) ∧
    (∀ t n, isTrigger t = true → (∃ f ∈ tree, fileName f = t) →
      n ∈ followersOf t →
      2 ≤ (tree.filter (fun g => decide (fileName g = n))).length →
      (buildNml tree).isOk = false) := by
  refine ⟨fun rs h => resolveFollowers_ok_names h,
    fun n hn h0 => resolveFollowers_err_of_zero hn h0,
    fun n hn h2 => resolveFollowers_err_of_multi hn h2,
    fun t n htr ⟨f, hf, hft⟩ hn h2 => ?_⟩
  refine buildNml_err_of_scan ?_
  refine scanList_err_of_bad_trigger (fun n hn => absurd hn (List.not_mem_nil n))
    f hf (hft ▸ htr) ?_
  rw [hft]
  exact resolveFollowers_err_of_multi hn h2

/-- C8 witness: a tree in which the `LMS_4F.pnml` chain's follower
`MR_3835.pnml` exists in two subdirectories aborts the pipeline. -/
theorem C8_chain_resolver_witness : (buildNml t8cex).isOk = false :=
  (C8_chain_resolver t8cex (followersOf "LMS_4F.pnml")).2.2.2 "LMS_4F.pnml"
    "MR_3835.pnml" (by decide) (by decide) (by decide) (by decide)

theorem emitFiles_tenders_none (c : List String) (sp : List (String × List FileEntry))
    (l : List FileEntry) (tm : List (String × FileEntry)) (k : String)
    (h : assocLookup k tm = none) :
    assocLookup k (emitFiles c sp l tm).2 = none := by
  refine assocLookup_none_of_not_mem ?_
  intro hmem
  have hsub := (emitFiles_tenders_sublist c sp l tm).map Prod.fst
  have hk := assocLookup_isSome_of_mem (hsub.subset hmem)
  rw [h] at hk
  cases hk

/-- C4: the buffer is assembled in the fixed order: required-set blocks in
declared order first, then the four tiers Top-level, Priority, Normal,
Append, never interleaved, each tier sorted by path, in-chain fragments
skipped, and every block carrying a `// <name>` provenance line. -/
theorem C4_fixed_assembly_order (tree : List FileEntry) (req : String) (st : ScanState)
    (hreq : requiredEmit tree KeyFiles = Except.ok req)
    (hscan : scanTree tree = Except.ok st) :
    buildNml tree = Except.ok (req ++ specOrderedEmission st) ∧
    req = strConcat (KeyFiles.map (fun n =>
      copyBlock n (((findTop tree n).map FileEntry.content).getD ""))) ∧
    (List.Sorted pathLe (sortPath st.top) ∧ List.Sorted pathLe (sortPath st.priority) ∧
      List.Sorted pathLe (sortPath st.normal) ∧ List.Sorted pathLe (sortPath st.appendT)) ∧
    (∀ l tm, emitFiles st.inChain st.specials l tm =
      emitFiles st.inChain st.specials
        (l.filter (fun f => decide (fileName f ∉ st.inChain))) tm) ∧
    (∀ f, emitEntry f = "// " ++ fileName f ++ "\n" ++ f.content ++ "\n\n") := by
  refine ⟨?_, requiredEmit_ok_join hreq,
    ⟨sortPath_sorted _, sortPath_sorted _, sortPath_sorted _, sortPath_sorted _⟩,
    fun l tm => emitFiles_filter_skip _ _ l tm, fun f => rfl⟩
  unfold buildNml
  rw [hreq, hscan]
  rfl

/-- C4 witness: the assembly equation evaluated on a tree with one fragment
in each tier. -/
theorem C4_fixed_assembly_order_witness :
    buildNml t4w = Except.ok (baseBuf ++ specOrderedEmission (scanOf t4w)) :=
  (C4_fixed_assembly_order t4w baseBuf (scanOf t4w) (by decide) (by decide)).1

/-- C3 amended: for every chain trigger present in the tree, the resolved
chain preserves declared follower order; every follower is marked in-chain
and is skipped by the tier iteration wherever it occurs; and when the
trigger itself is emitted, its block is immediately followed by the
followers' blocks in declared order (after any companion splice that
precedes the trigger's own block). -/
theorem C3_amended_chain_emission (tree : List FileEntry) (st : ScanState)
    (hscan : scanTree tree = Except.ok st) :
    (∀ t, isTrigger t = true → presentName tree t →
      ∃ rs, assocLookup t st.specials = some rs ∧ rs.map fileName = followersOf t) ∧
    (∀ t, isTrigger t = true → presentName tree t →
      ∀ n ∈ followersOf t, n ∈ st.inChain ∧
        ∀ (g : FileEntry) (rest : List FileEntry) (tm : List (String × FileEntry)),
          fileName g = n →
          emitFiles st.inChain st.specials (g :: rest) tm =
            emitFiles st.inChain st.specials rest tm) ∧
    (∀ (f : FileEntry) (rest : List FileEntry) (tm : List (String × FileEntry)),
      fileName f ∉ st.inChain → isTrigger (fileName f) = true →
      presentName tree (fileName f) →
      ∃ rs, assocLookup (fileName f) st.specials = some rs ∧
        rs.map fileName = followersOf (fileName f) ∧
        (emitFiles st.inChain st.specials (f :: rest) tm).1 =
          (tenderSplice tm f).1 ++ emitEntry f ++ strConcat (rs.map emitEntry) ++
            (emitFiles st.inChain st.specials rest (tenderSplice tm f).2).1) := by
  unfold scanTree at hscan
  have hInv0 : ∀ n ∈ initState.inChain, n ∈ allFollowerNames :=
    fun n hn => absurd hn (List.not_mem_nil n)
  have hSp0 : ∀ t v, assocLookup t initState.specials = some v →
      isTrigger t = true ∧ resolveFollowers tree (followersOf t) = Except.ok v :=
    fun t v hv => by cases hv
  have hlook : ∀ t, isTrigger t = true → presentName tree t →
      ∃ rs, assocLookup t st.specials = some rs ∧ rs.map fileName = followersOf t := by
    intro t ht hpres
    obtain ⟨f, hf, hft⟩ := hpres
    have hsome := scanList_specials_present hscan hInv0 f hf (by rw [hft]; exact ht)
    rw [hft] at hsome
    cases hlk : assocLookup t st.specials with
    | none => rw [hlk] at hsome; cases hsome
    | some rs =>
      have hval := scanList_specials_value hscan hSp0 t rs hlk
      exact ⟨rs, rfl, resolveFollowers_ok_names hval.2⟩
  refine ⟨hlook, ?_, ?_⟩
  · intro t ht hpres n hn
    obtain ⟨f, hf, hft⟩ := hpres
    have hmem : n ∈ st.inChain :=
      scanList_inChain_of_present hscan hInv0 f hf (by rw [hft]; exact ht) n
        (by rw [hft]; exact hn)
    refine ⟨hmem, fun g rest tm hg => ?_⟩
    exact emitFiles_cons_skip (by rw [hg]; exact hmem)
  · intro f rest tm hskip htr hpres
    obtain ⟨rs, hlk, hnames⟩ := hlook (fileName f) htr hpres
    refine ⟨rs, hlk, hnames, ?_⟩
    rw [emitFiles_cons_emit hskip]
    have hch : chainPart st.specials (fileName f) = strConcat (rs.map emitEntry) := by
      unfold chainPart
      rw [if_pos htr, hlk]
    rw [hch]

/-- C3 amended witness: in `t5cex` the follower `MR_3835.pnml` of the present
trigger `LMS_4F.pnml` is marked in-chain and its file is skipped by the
emission loop. -/
theorem C3_amended_chain_emission_witness :
    "MR_3835.pnml" ∈ (scanOf t5cex).inChain ∧
      emitFiles (scanOf t5cex).inChain (scanOf t5cex).specials
          [⟨["Ch", "MR_3835.pnml"], "m3835"⟩] [] =
        emitFiles (scanOf t5cex).inChain (scanOf t5cex).specials [] [] := by
  have h := (C3_amended_chain_emission t5cex (scanOf t5cex) (by rfl)).2.1
    "LMS_4F.pnml" (by decide)
    ⟨⟨["Locomotive_Steam", "LMS_4F.pnml"], "lms4f"⟩, by decide, rfl⟩
    "MR_3835.pnml" (by decide)
  exact ⟨h.1, h.2 ⟨["Ch", "MR_3835.pnml"], "m3835"⟩ [] [] rfl⟩

/-- C5 amended: the companion splice emits the pending companion immediately
before the primary and pops it, the popped key stays absent for the rest of
the run (so the companion mechanism emits each companion at most once), and
leftover companions never make a successful run fail. -/
theorem C5_amended_companion_behavior (tm : List (String × FileEntry))
    (f t : FileEntry) (c : List String) (sp : List (String × List FileEntry))
    (l : List FileEntry) (k : String) :
    ((tm.map Prod.fst).Nodup → "Locomotive_Steam" ∈ fileParts f →
      assocLookup (tKey f) tm = some t →
      tenderSplice tm f = (emitEntry t, dictPop (tKey f) tm) ∧
        assocLookup (tKey f) (dictPop (tKey f) tm) = none) ∧
    (assocLookup k tm = none → assocLookup k (emitFiles c sp l tm).2 = none) ∧
    (∀ tree st req, scanTree tree = Except.ok st →
      requiredEmit tree KeyFiles = Except.ok req → (buildNml tree).isOk = true) := by
  refine ⟨fun hnd hsteam hlk =>
      ⟨tenderSplice_hit hsteam hlk, assocLookup_dictPop_self _ tm hnd⟩,
    fun h => emitFiles_tenders_none c sp l tm k h,
    fun tree st req hscan hreq => ?_⟩
  unfold buildNml
  rw [hreq, hscan]
  rfl

/-- C5 amended witness: the splice/pop equations at a concrete companion and
primary, the popped-key persistence, and a successful run with an empty
leftover map. -/
theorem C5_amended_companion_behavior_witness :
    (tenderSplice [("LNER", c6tender)] c6primary =
        (emitEntry c6tender, dictPop (tKey c6primary) [("LNER", c6tender)]) ∧
      assocLookup (tKey c6primary)
        (dictPop (tKey c6primary) [("LNER", c6tender)]) = none) ∧
    assocLookup "MR" (emitFiles [] [] [c6primary] []).2 = none ∧
    (buildNml baseTree).isOk = true := by
  refine ⟨(C5_amended_companion_behavior [("LNER", c6tender)] c6primary c6tender
      [] [] [c6primary] "MR").1 (by decide) (by decide) (by decide),
    (C5_amended_companion_behavior [("LNER", c6tender)] c6primary c6tender
      [] [] [c6primary] "MR").2.1 (by rfl),
    (C5_amended_companion_behavior [("LNER", c6tender)] c6primary c6tender
      [] [] [c6primary] "MR").2.2 baseTree initState baseBuf (by rfl) (by rfl)⟩

/-- C6 amended: the Companion Matcher defers the companion until its primary
is about to be emitted and then splices the companion's block in immediately
BEFORE the primary's block (not after). -/
theorem C6_amended_splice_before (c : List String) (sp : List (String × List FileEntry))
    (tm : List (String × FileEntry)) (f t : FileEntry) (rest : List FileEntry)
    (hskip : fileName f ∉ c)
    (hsteam : "Locomotive_Steam" ∈ fileParts f)
    (ht : assocLookup (tKey f) tm = some t) :
    (emitFiles c sp (f :: rest) tm).1 =
      emitEntry t ++ emitEntry f ++ chainPart sp (fileName f) ++
        (emitFiles c sp rest (dictPop (tKey f) tm)).1 := by
  rw [emitFiles_cons_emit hskip, tenderSplice_hit hsteam ht]

/-- C6 amended witness: the splice-before equation at a concrete pair. -/
theorem C6_amended_splice_before_witness :
    (emitFiles [] [] [c6primary] [("LNER", c6tender)]).1 =
      emitEntry c6tender ++ emitEntry c6primary ++ chainPart [] (fileName c6primary) ++
        (emitFiles [] [] [] (dictPop (tKey c6primary) [("LNER", c6tender)])).1 :=
  C6_amended_splice_before [] [] [("LNER", c6tender)] c6primary c6tender []
    (by decide) (by decide) (by decide)

theorem lastD_cases {α : Type} : ∀ (l : List α) (d : Option α),
    lastD l d = d ∨ ∃ a ∈ l, lastD l d = some a
  | [], d => Or.inl rfl
  | a :: rest, d => by
    rcases lastD_cases rest (some a) with h | ⟨b, hb, h⟩
    · exact Or.inr ⟨a, List.mem_cons_self a rest, h⟩
    · exact Or.inr ⟨b, List.mem_cons_of_mem a hb, h⟩

theorem scanList_normal_mem {tree : List FileEntry} :
    ∀ {l : List FileEntry} {st st' : ScanState}, scanList tree st l = Except.ok st' →
      ∀ f ∈ st'.normal, f ∈ st.normal ∨ normalBaseB f = true
  | [], st, st', h => by
    injection h with h'
    subst h'
    exact fun f hf => Or.inl hf
  | f0 :: rest, st, st', h => by
    rw [scanList_cons] at h
    cases hs : scanStep tree st f0 with
    | error e => rw [hs] at h; cases h
    | ok st2 =>
      rw [hs] at h
      intro f hf
      rcases scanList_normal_mem h f hf with hf2 | hf2
      · rw [scanStep_ok_normal hs] at hf2
        rcases List.mem_append.mp hf2 with hf3 | hf3
        · exact Or.inl hf3
        · split_ifs at hf3 with hco
          · rcases List.mem_singleton.mp hf3 with rfl
            exact Or.inr hco.1
          · exact absurd hf3 (List.not_mem_nil f)
      · exact Or.inr hf2

theorem keyfile_not_tender : ∀ n ∈ KeyFiles, containsTenders (stemOf n) = false := by
  decide

/-- C7 amended: a fragment carrying a Required Fragment Set name is excluded
from the Top-level and Normal tiers and from companion registration wherever
it sits; it can only reach a tier through a `priority` or `append` path
segment. -/
theorem C7_amended_required_exclusion (tree : List FileEntry) (st : ScanState)
    (hscan : scanTree tree = Except.ok st) :
    ∀ f : FileEntry, fileName f ∈ KeyFiles →
      f ∉ st.top ∧ f ∉ st.normal ∧
      (∀ k, assocLookup k st.tenders ≠ some f) ∧
      (f ∈ st.priority → "priority" ∈ f.relParts) ∧
      (f ∈ st.appendT → "append" ∈ f.relParts) := by
  unfold scanTree at hscan
  intro f hkey
  have hkeyb : isKeyName f = true := by
    unfold isKeyName
    exact decide_eq_true hkey
  refine ⟨?_, ?_, ?_, ?_, ?_⟩
  · intro hf
    have htop := scanList_ok_top hscan
    rw [htop] at hf
    have := (List.mem_filter.mp (by simpa [initState] using hf)).2
    unfold topPredB at this
    rw [hkeyb] at this
    simp at this
  · intro hf
    rcases scanList_normal_mem hscan f hf with hf2 | hf2
    · exact absurd hf2 (List.not_mem_nil f)
    · unfold normalBaseB at hf2
      rw [hkeyb] at hf2
      simp at hf2
  · intro k hlk
    rw [scanList_tenders_lastD hscan k] at hlk
    rcases lastD_cases (tree.filter (fun g => tenderPredB g && decide (tKey g = k)))
        (assocLookup k initState.tenders) with h | ⟨a, ha, h⟩
    · rw [h] at hlk
      cases hlk
    · rw [h] at hlk
      injection hlk with h'
      subst h'
      have hpred := (List.mem_filter.mp ha).2
      simp only [Bool.and_eq_true] at hpred
      have hta := hpred.1
      unfold tenderPredB at hta
      simp only [Bool.and_eq_true] at hta
      have hct := hta.2
      rw [keyfile_not_tender (fileName a) hkey] at hct
      cases hct
  · intro hf
    have hprio := scanList_ok_priority hscan
    rw [hprio] at hf
    have := (List.mem_filter.mp (by simpa [initState] using hf)).2
    unfold prioPredB at this
    simp only [Bool.and_eq_true] at this
    exact of_decide_eq_true this.2
  · intro hf
    have happ := scanList_ok_appendT hscan
    rw [happ] at hf
    have := (List.mem_filter.mp (by simpa [initState] using hf)).2
    unfold appPredB at this
    simp only [Bool.and_eq_true] at this
    exact of_decide_eq_true this.2

/-- C7 amended witness: the top-level `sounds.pnml` of `t7cex` lands in no
tier. -/
theorem C7_amended_required_exclusion_witness :
    (⟨["sounds.pnml"], "S"⟩ : FileEntry) ∉ (scanOf t7cex).top ∧
      (⟨["sounds.pnml"], "S"⟩ : FileEntry) ∉ (scanOf t7cex).normal := by
  have h := C7_amended_required_exclusion t7cex (scanOf t7cex) (by rfl)
    ⟨["sounds.pnml"], "S"⟩ (by decide)
  exact ⟨h.1, h.2.1⟩

theorem perm_subsingleton_eq {α : Type} : ∀ {xs ys : List α}, xs.Perm ys →
    (∀ a ∈ xs, ∀ b ∈ xs, a = b) → xs.Nodup → xs = ys
  | [], ys, hp, _, _ => hp.nil_eq
  | [a], ys, hp, _, _ => List.singleton_perm.mp hp
  | a :: b :: xs, ys, hp, hsub, hnd => by
    have hab : a = b := hsub a (List.mem_cons_self a (b :: xs)) b
      (List.mem_cons_of_mem a (List.mem_cons_self b xs))
    have := (List.nodup_cons.mp hnd).1
    exact absurd (by rw [hab]; exact List.mem_cons_self b xs) this

theorem scanTree_inChain_iff {tree : List FileEntry} {st : ScanState}
    (hscan : scanTree tree = Except.ok st) (n : String) :
    n ∈ st.inChain ↔
      ∃ f ∈ tree, isTrigger (fileName f) = true ∧ n ∈ followersOf (fileName f) := by
  unfold scanTree at hscan
  constructor
  · intro hn
    rcases scanList_inChain_sub hscan n hn with h | h
    · exact absurd h (List.not_mem_nil n)
    · exact h
  · rintro ⟨f, hf, htr, hfo⟩
    exact scanList_inChain_of_present hscan
      (fun m hm => absurd hm (List.not_mem_nil m)) f hf htr n hfo

theorem scanTree_specials_some {la lb : List FileEntry} {sa sb : ScanState}
    (hpp : la.Perm lb) (hsa : scanTree la = Except.ok sa)
    (hsb : scanTree lb = Except.ok sb) :
    ∀ t rs, assocLookup t sa.specials = some rs →
      assocLookup t sb.specials = some rs := by
  unfold scanTree at hsa hsb
  intro t rs hlk
  have hval := scanList_specials_value hsa (fun t v hv => by cases hv) t rs hlk
  have hpres : ∃ f ∈ la, fileName f = t := by
    rcases scanList_specials_keys hsa t (by rw [hlk]; rfl) with h | h
    · cases h
    · exact h
  obtain ⟨f, hf, hft⟩ := hpres
  have hfb : f ∈ lb := hpp.mem_iff.mp hf
  have hsome := scanList_specials_present hsb
    (fun m hm => absurd hm (List.not_mem_nil m)) f hfb (by rw [hft]; exact hval.1)
  rw [hft] at hsome
  cases hlk2 : assocLookup t sb.specials with
  | none => rw [hlk2] at hsome; cases hsome
  | some rs2 =>
    have hval2 := scanList_specials_value hsb (fun t v hv => by cases hv) t rs2 hlk2
    have hres : resolveFollowers lb (followersOf t) = Except.ok rs :=
      resolveFollowers_perm hpp hval.2
    rw [hval2.2] at hres
    injection hres with h'
    rw [h']

theorem scanTree_specials_eq {l₁ l₂ : List FileEntry} {st₁ st₂ : ScanState}
    (hp : l₁.Perm l₂) (h₁ : scanTree l₁ = Except.ok st₁)
    (h₂ : scanTree l₂ = Except.ok st₂) :
    ∀ t, assocLookup t st₁.specials = assocLookup t st₂.specials := by
  intro t
  cases hlk : assocLookup t st₁.specials with
  | some rs => exact (scanTree_specials_some hp h₁ h₂ t rs hlk).symm
  | none =>
    cases hlk2 : assocLookup t st₂.specials with
    | none => rfl
    | some rs =>
      have := scanTree_specials_some hp.symm h₂ h₁ t rs hlk2
      rw [this] at hlk
      cases hlk

theorem scanTree_tenders_eq {l₁ l₂ : List FileEntry} {st₁ st₂ : ScanState}
    (hp : l₁.Perm l₂) (hnd : (l₁.map pathStr).Nodup)
    (huq : ∀ f ∈ l₁, ∀ g ∈ l₁, tenderPredB f = true → tenderPredB g = true →
      tKey f = tKey g → f = g)
    (h₁ : scanTree l₁ = Except.ok st₁) (h₂ : scanTree l₂ = Except.ok st₂) :
    ∀ k, assocLookup k st₁.tenders = assocLookup k st₂.tenders := by
  intro k
  unfold scanTree at h₁ h₂
  rw [scanList_tenders_lastD h₁ k, scanList_tenders_lastD h₂ k]
  have hfe : l₁.filter (fun f => tenderPredB f && decide (tKey f = k)) =
      l₂.filter (fun f => tenderPredB f && decide (tKey f = k)) := by
    refine perm_subsingleton_eq (hp.filter _) ?_ ?_
    · intro a ha b hb
      have ha' := List.mem_filter.mp ha
      have hb' := List.mem_filter.mp hb
      simp only [Bool.and_eq_true] at ha' hb'
      refine huq a ha'.1 b hb'.1 ha'.2.1 hb'.2.1 ?_
      rw [of_decide_eq_true ha'.2.2, of_decide_eq_true hb'.2.2]
    · exact (hnd.of_map).filter _
  rw [hfe]

theorem scanTree_tenders_nodup {tree : List FileEntry} {st : ScanState}
    (h : scanTree tree = Except.ok st) : (st.tenders.map Prod.fst).Nodup := by
  unfold scanTree at h
  exact scanList_tenders_keys_nodup h (by simp [initState])

theorem emitTiers_cons (st : ScanState) (l : List FileEntry)
    (ls : List (List FileEntry)) (tm : List (String × FileEntry)) :
    emitTiers st (l :: ls) tm =
      ((emitFiles st.inChain st.specials (sortPath l) tm).1 ++
        (emitTiers st ls (emitFiles st.inChain st.specials (sortPath l) tm).2).1,
       (emitTiers st ls (emitFiles st.inChain st.specials (sortPath l) tm).2).2) := by
  unfold emitTiers
  cases ls <;> rfl

theorem emit_tier_bridge {c₁ c₂ : List String} {sp₁ sp₂ : List (String × List FileEntry)}
    (hc : ∀ n, n ∈ c₁ ↔ n ∈ c₂)
    (hsp : ∀ t, assocLookup t sp₁ = assocLookup t sp₂)
    {T₁ T₂ : List FileEntry}
    (hT : (T₁.filter (fun f => decide (fileName f ∉ c₁))).Perm
      (T₂.filter (fun f => decide (fileName f ∉ c₂))))
    (hndT : ((T₁.filter (fun f => decide (fileName f ∉ c₁))).map pathStr).Nodup)
    {tm₁ tm₂ : List (String × FileEntry)}
    (htm : ∀ k, assocLookup k tm₁ = assocLookup k tm₂)
    (hnd₁ : (tm₁.map Prod.fst).Nodup) (hnd₂ : (tm₂.map Prod.fst).Nodup) :
    (emitFiles c₁ sp₁ (sortPath T₁) tm₁).1 = (emitFiles c₂ sp₂ (sortPath T₂) tm₂).1 ∧
      (∀ k, assocLookup k (emitFiles c₁ sp₁ (sortPath T₁) tm₁).2 =
        assocLookup k (emitFiles c₂ sp₂ (sortPath T₂) tm₂).2) ∧
      ((emitFiles c₁ sp₁ (sortPath T₁) tm₁).2.map Prod.fst).Nodup ∧
      ((emitFiles c₂ sp₂ (sortPath T₂) tm₂).2.map Prod.fst).Nodup := by
  have hskip : (sortPath T₁).filter (fun f => decide (fileName f ∉ c₁)) =
      (sortPath T₂).filter (fun f => decide (fileName f ∉ c₂)) := by
    refine sorted_key_eq _ _ ?_ ((sortPath_sorted T₁).filter _)
      ((sortPath_sorted T₂).filter _) ?_
    · exact ((sortPath_perm T₁).filter _).trans
        (hT.trans ((sortPath_perm T₂).filter _).symm)
    · exact (((sortPath_perm T₁).filter _).map pathStr).nodup_iff.mpr hndT
  have hnodA : ((emitFiles c₁ sp₁ (sortPath T₁) tm₁).2.map Prod.fst).Nodup :=
    List.Nodup.sublist ((emitFiles_tenders_sublist c₁ sp₁ (sortPath T₁) tm₁).map _) hnd₁
  have hnodB : ((emitFiles c₂ sp₂ (sortPath T₂) tm₂).2.map Prod.fst).Nodup :=
    List.Nodup.sublist ((emitFiles_tenders_sublist c₂ sp₂ (sortPath T₂) tm₂).map _) hnd₂
  have hmain := emitFiles_congr hc hsp
    ((sortPath T₂).filter (fun f => decide (fileName f ∉ c₂))) tm₁ tm₂ htm hnd₁ hnd₂
  refine ⟨?_, ?_, hnodA, hnodB⟩
  · rw [emitFiles_filter_skip c₁ sp₁ (sortPath T₁) tm₁,
      emitFiles_filter_skip c₂ sp₂ (sortPath T₂) tm₂, hskip]
    exact hmain.1
  · intro k
    rw [emitFiles_filter_skip c₁ sp₁ (sortPath T₁) tm₁,
      emitFiles_filter_skip c₂ sp₂ (sortPath T₂) tm₂, hskip]
    exact hmain.2 k

theorem emitTiers_nil (st : ScanState) (tm : List (String × FileEntry)) :
    emitTiers st [] tm = ("", tm) := rfl

theorem buildNml_ok_inv {tree : List FileEntry} {b : String}
    (h : buildNml tree = Except.ok b) :
    ∃ req st, requiredEmit tree KeyFiles = Except.ok req ∧
      scanTree tree = Except.ok st ∧
      b = req ++ (emitTiers st (tiersList st) st.tenders).1 := by
  unfold buildNml at h
  cases hreq : requiredEmit tree KeyFiles with
  | error e => rw [hreq] at h; cases h
  | ok req =>
    rw [hreq] at h
    cases hs : scanTree tree with
    | error e => rw [hs] at h; cases h
    | ok st =>
      rw [hs] at h
      injection h with h'
      exact ⟨req, st, rfl, rfl, h'.symm⟩

/-- C10 amended: over one unchanged set of files (any two enumeration
orders), with unique paths and at most one companion file per prefix key,
two successful runs produce byte-identical buffers. -/
theorem C10_amended_order_independence (l₁ l₂ : List FileEntry) (b₁ b₂ : String)
    (hp : l₁.Perm l₂)
    (hnd : (l₁.map pathStr).Nodup)
    (huq : ∀ f ∈ l₁, ∀ g ∈ l₁, tenderPredB f = true → tenderPredB g = true →
      tKey f = tKey g → f = g)
    (h₁ : buildNml l₁ = Except.ok b₁) (h₂ : buildNml l₂ = Except.ok b₂) :
    b₁ = b₂ := by
  obtain ⟨req₁, st₁, hreq₁, hs₁, hb₁⟩ := buildNml_ok_inv h₁
  obtain ⟨req₂, st₂, hreq₂, hs₂, hb₂⟩ := buildNml_ok_inv h₂
  subst hb₁
  subst hb₂
  have hreqe : req₁ = req₂ := by
    have h := requiredEmit_congr (findTop_eq_of_perm hp hnd) KeyFiles
    rw [hreq₁, hreq₂] at h
    injection h
  have hIC : ∀ n, n ∈ st₁.inChain ↔ n ∈ st₂.inChain := by
    intro n
    rw [scanTree_inChain_iff hs₁ n, scanTree_inChain_iff hs₂ n]
    constructor
    · rintro ⟨f, hf, hrest⟩
      exact ⟨f, hp.mem_iff.mp hf, hrest⟩
    · rintro ⟨f, hf, hrest⟩
      exact ⟨f, hp.mem_iff.mpr hf, hrest⟩
  have hSP := scanTree_specials_eq hp hs₁ hs₂
  have hTM := scanTree_tenders_eq hp hnd huq hs₁ hs₂
  have hndk₁ := scanTree_tenders_nodup hs₁
  have hndk₂ := scanTree_tenders_nodup hs₂
  have hskipeq : ∀ (X : List FileEntry),
      X.filter (fun f => decide (fileName f ∉ st₂.inChain)) =
        X.filter (fun f => decide (fileName f ∉ st₁.inChain)) := by
    intro X
    refine List.filter_congr ?_
    intro x _
    exact decide_eq_decide.mpr (not_congr (hIC (fileName x)).symm)
  have htop₁ : st₁.top = l₁.filter topPredB := by
    have h := scanList_ok_top (show scanList l₁ initState l₁ = Except.ok st₁ from hs₁)
    simpa [initState] using h
  have htop₂ : st₂.top = l₂.filter topPredB := by
    have h := scanList_ok_top (show scanList l₂ initState l₂ = Except.ok st₂ from hs₂)
    simpa [initState] using h
  have hprio₁ : st₁.priority = l₁.filter prioPredB := by
    have h := scanList_ok_priority (show scanList l₁ initState l₁ = Except.ok st₁ from hs₁)
    simpa [initState] using h
  have hprio₂ : st₂.priority = l₂.filter prioPredB := by
    have h := scanList_ok_priority (show scanList l₂ initState l₂ = Except.ok st₂ from hs₂)
    simpa [initState] using h
  have happ₁ : st₁.appendT = l₁.filter appPredB := by
    have h := scanList_ok_appendT (show scanList l₁ initState l₁ = Except.ok st₁ from hs₁)
    simpa [initState] using h
  have happ₂ : st₂.appendT = l₂.filter appPredB := by
    have h := scanList_ok_appendT (show scanList l₂ initState l₂ = Except.ok st₂ from hs₂)
    simpa [initState] using h
  have hnf₁ : st₁.normal.filter (fun f => decide (fileName f ∉ st₁.inChain)) =
      l₁.filter (fun f => normalBaseB f && decide (fileName f ∉ st₁.inChain)) := by
    have h := scanList_normal_filter (show scanList l₁ initState l₁ = Except.ok st₁ from hs₁)
    simpa [initState] using h
  have hnf₂ : st₂.normal.filter (fun f => decide (fileName f ∉ st₂.inChain)) =
      l₂.filter (fun f => normalBaseB f && decide (fileName f ∉ st₂.inChain)) := by
    have h := scanList_normal_filter (show scanList l₂ initState l₂ = Except.ok st₂ from hs₂)
    simpa [initState] using h
  have hTtop : (st₁.top.filter (fun f => decide (fileName f ∉ st₁.inChain))).Perm
      (st₂.top.filter (fun f => decide (fileName f ∉ st₂.inChain))) := by
    rw [htop₁, htop₂, hskipeq (l₂.filter topPredB)]
    exact (hp.filter topPredB).filter _
  have hTprio : (st₁.priority.filter (fun f => decide (fileName f ∉ st₁.inChain))).Perm
      (st₂.priority.filter (fun f => decide (fileName f ∉ st₂.inChain))) := by
    rw [hprio₁, hprio₂, hskipeq (l₂.filter prioPredB)]
    exact (hp.filter prioPredB).filter _
  have hTapp : (st₁.appendT.filter (fun f => decide (fileName f ∉ st₁.inChain))).Perm
      (st₂.appendT.filter (fun f => decide (fileName f ∉ st₂.inChain))) := by
    rw [happ₁, happ₂, hskipeq (l₂.filter appPredB)]
    exact (hp.filter appPredB).filter _
  have hTnorm : (st₁.normal.filter (fun f => decide (fileName f ∉ st₁.inChain))).Perm
      (st₂.normal.filter (fun f => decide (fileName f ∉ st₂.inChain))) := by
    rw [hnf₁, hnf₂]
    have he : l₂.filter (fun f => normalBaseB f && decide (fileName f ∉ st₂.inChain)) =
        l₂.filter (fun f => normalBaseB f && decide (fileName f ∉ st₁.inChain)) := by
      refine List.filter_congr ?_
      intro x _
      rw [decide_eq_decide.mpr (not_congr (hIC (fileName x)).symm)]
    rw [he]
    exact hp.filter _
  have hndtop : ((st₁.top.filter
      (fun f => decide (fileName f ∉ st₁.inChain))).map pathStr).Nodup := by
    rw [htop₁]
    exact List.Nodup.sublist
      (((List.filter_sublist _).trans (List.filter_sublist _)).map pathStr) hnd
  have hndprio : ((st₁.priority.filter
      (fun f => decide (fileName f ∉ st₁.inChain))).map pathStr).Nodup := by
    rw [hprio₁]
    exact List.Nodup.sublist
      (((List.filter_sublist _).trans (List.filter_sublist _)).map pathStr) hnd
  have hndapp : ((st₁.appendT.filter
      (fun f => decide (fileName f ∉ st₁.inChain))).map pathStr).Nodup := by
    rw [happ₁]
    exact List.Nodup.sublist
      (((List.filter_sublist _).trans (List.filter_sublist _)).map pathStr) hnd
  have hndnorm : ((st₁.normal.filter
      (fun f => decide (fileName f ∉ st₁.inChain))).map pathStr).Nodup := by
    rw [hnf₁]
    exact List.Nodup.sublist ((List.filter_sublist _).map pathStr) hnd
  have hB1 := emit_tier_bridge hIC hSP hTtop hndtop hTM hndk₁ hndk₂
  have hB2 := emit_tier_bridge hIC hSP hTprio hndprio hB1.2.1 hB1.2.2.1 hB1.2.2.2
  have hB3 := emit_tier_bridge hIC hSP hTnorm hndnorm hB2.2.1 hB2.2.2.1 hB2.2.2.2
  have hB4 := emit_tier_bridge hIC hSP hTapp hndapp hB3.2.1 hB3.2.2.1 hB3.2.2.2
  rw [hreqe]
  congr 1
  unfold tiersList
  rw [emitTiers_cons, emitTiers_cons, emitTiers_cons, emitTiers_cons,
    emitTiers_nil, emitTiers_cons, emitTiers_cons, emitTiers_cons, emitTiers_cons,
    emitTiers_nil]
  rw [hB1.1, hB2.1, hB3.1, hB4.1]

/-- C10 amended witness: the two enumerations `t10w1` and `t10w2` of one
tree with a uniquely-keyed companion give the same buffer. -/
theorem C10_amended_order_independence_witness :
    (baseBuf ++ "// MR_Tenders.pnml\nT1\n\n// MR_Loco.pnml\nloco\n\n" : String) =
      baseBuf ++ "// MR_Tenders.pnml\nT1\n\n// MR_Loco.pnml\nloco\n\n" :=
  C10_amended_order_independence t10w1 t10w2
    (baseBuf ++ "// MR_Tenders.pnml\nT1\n\n// MR_Loco.pnml\nloco\n\n")
    (baseBuf ++ "// MR_Tenders.pnml\nT1\n\n// MR_Loco.pnml\nloco\n\n")
    (by decide) (by decide) (by decide) (by decide) (by decide)

end Build
